import Mathlib

/-!
Verification of the knit build-orchestrator core (package `knit`, file
`run.go` part of the repository, plus `liblua/knit.go`) against its
natural-language specification.

Strings are embedded as `List Char` (Go strings are byte sequences; every
string handled by the claims is treated code-point-wise).  External
collaborators that are not part of the sources under verification (the
`rules` package: graph builder, executor, database; the Lua scripting
host; the operating system) are supplied as abstract data in a `RunEnv`
environment record; parts whose behaviour a claim depends on are modelled
from the specification and marked as such in their doc comments.
-/

namespace Knit

/-- Character-list strings, the embedding of Go `string`. -/
abbrev Str := List Char

/-- Convenience conversion from Lean string literals. -/
def cs (x : String) : Str := x.data

/-! ## liblua/knit.go: `ExtRepl` and `Repl`

`ExtRepl(in, ext, repl)` builds the pattern `regexp.QuoteMeta(ext) + "$"`
and calls `Repl`, which compiles the pattern and applies
`ReplaceAllString(v, repl)` to every element.  The Go regexp library is
external; it is modelled here on the exact pattern fragment the code
produces: a `QuoteMeta`-quoted literal followed by a final `$` anchor
(which in Go regexp matches only at end of text).  `ReplaceAllString`
interprets `$` signs in the replacement as in `Regexp.Expand`; that
template expansion is modelled byte-for-byte after the Go standard
library (`regexp.(*Regexp).expand` and its helper `extract`). -/

/-- The characters `regexp.QuoteMeta` escapes: `\.+*?()|[]{}^$`. -/
def isSpecialChar (c : Char) : Bool :=
  c = '\\' || c = '.' || c = '+' || c = '*' || c = '?' || c = '(' ||
  c = ')' || c = '|' || c = '[' || c = ']' || c = '\x7b' || c = '\x7d' ||
  c = '^' || c = '$'

/-- Model of `regexp.QuoteMeta`: escape every special character with a
backslash. -/
def quoteMeta (s : Str) : Str :=
  s.flatMap (fun c => if isSpecialChar c then ['\\', c] else [c])

/-- Model of `regexp.Compile` restricted to the fragment of patterns that
`ExtRepl` constructs: a sequence of literal characters (escaped if
special) terminated by a single end-of-text anchor `$`.  The result is
the literal character sequence the pattern requires as a suffix of the
subject.  Patterns outside this fragment are conservatively mapped to
`none`; the only compiled patterns a claim depends on are of the form
`quoteMeta ext ++ "$"`, which are proved to be in the fragment. -/
def compileLit : Str → Option Str
  | [] => none
  | [c] => if c = '$' then some [] else none
  | c :: c2 :: rest2 =>
    if c = '$' then none
    else if c = '\\' then (compileLit rest2).map (fun l => c2 :: l)
    else if isSpecialChar c then none
    else (compileLit (c2 :: rest2)).map (fun l => c :: l)

/-- Word characters of `regexp.extract` (`unicode.IsLetter`,
`unicode.IsDigit` or underscore; modelled on the ASCII range, which is
the only range exercised by the claims). -/
def isWordChar (c : Char) : Bool := c.isAlpha || c.isDigit || c = '_'

/-- The digit-parsing loop of Go `regexp.extract`: left fold over the
name, aborting with `-1` on a non-digit or once the accumulator reaches
`1e8`. -/
def goNumLoop : Int → Str → Int
  | num, [] => num
  | num, c :: r =>
    if c < '0' || '9' < c || num ≥ 100000000 then -1
    else goNumLoop (num * 10 + ((c.toNat : Int) - 48)) r

/-- The numeric interpretation of a `$name` reference in Go
`regexp.extract`: the parsed number, or `-1` when the name is not a
plain number (including the leading-zero rule). -/
def goNum (name : Str) : Int :=
  let n := goNumLoop 0 name
  if name.head? = some '0' && decide (1 < name.length) then -1 else n

/-- Model of Go `regexp.extract`: from the text following a `$`, parse a
group reference `name`/`{name}`, returning the name, its numeric value
(`-1` when non-numeric) and the rest of the template. -/
def extract (s : Str) : Option (Str × Int × Str) :=
  if s.isEmpty then none
  else
    let brace := s.head? = some '\x7b'
    let s1 := if brace then s.tail else s
    let name := s1.takeWhile isWordChar
    if name.isEmpty then none
    else
      let rest0 := s1.drop name.length
      if brace then
        if rest0.head? = some '\x7d' then some (name, goNum name, rest0.tail)
        else none
      else some (name, goNum name, rest0)

/-- Template expansion of Go `Regexp.expand` specialised to a regexp
with no capture groups whose whole match is `m` (the situation in
`ExtRepl`, where the pattern is a literal plus anchor): `$$` is a
literal `$`, `$0`/`${0}` is the whole match, any other group reference
expands to nothing, a malformed `$` is literal.  The `Nat` argument is
recursion fuel; one unit is spent per step while at least one character
is consumed, so `t.length` units always suffice (and when the fuel runs
out the remaining template is emitted verbatim, matching the final
`append` of the Go loop on templates without `$`). -/
def expandGo (m : Str) : Nat → Str → Str
  | 0, t => t
  | _ + 1, [] => []
  | n + 1, c :: rest =>
    if c = '$' then
      if rest.head? = some '$' then '$' :: expandGo m n rest.tail
      else
        match extract rest with
        | none => '$' :: expandGo m n rest
        | some (_, num, rest2) =>
          (if num = 0 then m else []) ++ expandGo m n rest2
    else c :: expandGo m n rest

/-- Expansion of the replacement template `t` against whole-match `m`. -/
def expandTmpl (m t : Str) : Str := expandGo m t.length t

/-- Model of `Regexp.ReplaceAllString` for a compiled pattern
`literal ++ "$"`: such a pattern has at most one match — the trailing
occurrence of `lit` — which is replaced by the expanded template. -/
def replLitDollar (lit tmpl v : Str) : Str :=
  if lit.isSuffixOf v then v.take (v.length - lit.length) ++ expandTmpl lit tmpl
  else v

/-- Model of `Repl` (liblua/knit.go): compile `patstr`, on failure return
the error, otherwise replace in every element.  Compilation is modelled
by `compileLit` (see there). -/
def Repl (ins : List Str) (patstr tmpl : Str) : Except Str (List Str) :=
  match compileLit patstr with
  | none => .error (cs "error parsing regexp")
  | some lit => .ok (ins.map (replLitDollar lit tmpl))

/-- Model of `ExtRepl` (liblua/knit.go): build `QuoteMeta(ext) + "$"`,
call `Repl`; `none` models the panic on a compile error. -/
def ExtRepl (ins : List Str) (ext repl : Str) : Option (List Str) :=
  match Repl ins (quoteMeta ext ++ ['$']) repl with
  | .error _ => none
  | .ok outs => some outs

end Knit

namespace Knit

/-- The pattern `ExtRepl` builds always compiles, to the literal it was
built from: the panic branch of `ExtRepl` is unreachable. -/
theorem quoteMeta_compileLit (ext : Str) :
    compileLit (quoteMeta ext ++ ['$']) = some ext := by
  induction ext with
  | nil => rfl
  | cons c rest ih =>
    by_cases h : isSpecialChar c = true
    · have he : quoteMeta (c :: rest) ++ ['$'] =
          '\\' :: c :: (quoteMeta rest ++ ['$']) := by
        simp [quoteMeta, h]
      rw [he]
      rw [compileLit, if_neg (by decide), if_pos rfl, ih]
      rfl
    · have hd : ¬ c = '$' := by rintro rfl; simp [isSpecialChar] at h
      have hb : ¬ c = '\\' := by rintro rfl; simp [isSpecialChar] at h
      have he : quoteMeta (c :: rest) ++ ['$'] = c :: (quoteMeta rest ++ ['$']) := by
        simp [quoteMeta, h]
      rw [he]
      cases hq : quoteMeta rest with
      | nil =>
        rw [hq] at ih
        simp only [List.nil_append] at ih ⊢
        rw [compileLit, if_neg hd, if_neg hb, if_neg (by simp [h]), ih]
        rfl
      | cons y ys =>
        rw [hq] at ih
        simp only [List.cons_append] at ih ⊢
        rw [compileLit, if_neg hd, if_neg hb, if_neg (by simp [h]), ih]
        rfl

/-- A replacement template without `$` expands to itself. -/
theorem expandGo_no_dollar (m : Str) (n : Nat) (t : Str) (h : '$' ∉ t) :
    expandGo m n t = t := by
  induction n generalizing t with
  | zero => rfl
  | succ n ih =>
    cases t with
    | nil => rfl
    | cons c rest =>
      have hc : ¬ c = '$' := fun hc => h (hc ▸ List.mem_cons_self c rest)
      have hr : '$' ∉ rest := fun hr => h (List.mem_cons_of_mem c hr)
      simp [expandGo, hc, ih rest hr]

theorem expandTmpl_no_dollar (m t : Str) (h : '$' ∉ t) : expandTmpl m t = t :=
  expandGo_no_dollar m t.length t h

/-- C10: for every list of strings, extension `ext` and replacement
`repl`, `ExtRepl` never panics (the built pattern always compiles) and
returns the input list with, in each element that ends in `ext`, the
trailing `ext` replaced by the `Expand`-template interpretation of
`repl` — which coincides with `repl` itself whenever `repl` contains no
`$` character — and every other element unchanged; the length of the
output equals the length of the input. -/
theorem ExtRepl_spec (ins : List Str) (ext repl : Str) :
    ExtRepl ins ext repl = some (ins.map (replLitDollar ext repl)) ∧
    (∀ v, replLitDollar ext repl v =
      if ext.isSuffixOf v then v.take (v.length - ext.length) ++ expandTmpl ext repl
      else v) ∧
    (∀ outs, ExtRepl ins ext repl = some outs → outs.length = ins.length) ∧
    ('$' ∉ repl → ∀ v, replLitDollar ext repl v =
      if ext.isSuffixOf v then v.take (v.length - ext.length) ++ repl
      else v) := by
  have h1 : ExtRepl ins ext repl = some (ins.map (replLitDollar ext repl)) := by
    unfold ExtRepl Repl
    rw [quoteMeta_compileLit]
  refine ⟨h1, fun v => rfl, ?_, ?_⟩
  · intro outs h
    rw [h1] at h
    cases h
    exact List.length_map ins (replLitDollar ext repl)
  · intro hnd v
    rw [replLitDollar, expandTmpl_no_dollar ext repl hnd]

/-- C10, counterexample to the claim as stated: for `repl = "$0"`, which
ends in `ext = ".c"`, the element `"a.c"` does not get its trailing
`".c"` replaced by the literal string `"$0"`; Go template expansion of
the replacement turns `$0` into the matched text, leaving `"a.c"`
unchanged instead of producing `"a$0"`. -/
theorem ExtRepl_dollar_template_counterexample :
    ExtRepl [cs "a.c"] (cs ".c") (cs "$0") = some [cs "a.c"] ∧
    cs "a.c" ≠ cs "a" ++ cs "$0" := by
  exact ⟨rfl, by decide⟩

/-- Witness for `ExtRepl_spec`: instantiation at a concrete input, with
the `'$' ∉ repl` hypothesis discharged. -/
theorem ExtRepl_spec_witness :
    replLitDollar (cs ".c") (cs ".o") (cs "main.c") = cs "main.o" ∧
    (∀ outs, ExtRepl [cs "main.c"] (cs ".c") (cs ".o") = some outs →
      outs.length = 1) := by
  constructor
  · have h := (ExtRepl_spec [cs "main.c"] (cs ".c") (cs ".o")).2.2.2
      (by decide) (cs "main.c")
    rw [h]
    decide
  · intro outs h
    exact (ExtRepl_spec [cs "main.c"] (cs ".c") (cs ".o")).2.2.1 outs h

/-! ## The knit package (the `run.go` part of the sources)

`Run`, `getRuleSets`, `makeAssigns`, `title` and the `Flags` record are
translated from the source.  External collaborators — the Lua scripting
host, the `rules` package (parser, graph builder, database, executor)
and the operating system — are supplied through a `RunEnv` record of
abstract outcomes; members whose behaviour a claim relies on carry a
`Modelled from the spec` note. -/

/-- Model of `title` (run.go): title-case the first character
(`unicode.ToTitle`, modelled on the ASCII range, where it coincides with
upper-casing).  On the empty string Go decodes the replacement rune
`�`, which has no case mapping, and prepends it. -/
def title : Str → Str
  | [] => ['�']
  | c :: rest => c.toUpper :: rest

/-- The `Flags` record (run.go). -/
structure Flags where
  knitfile : Str
  ncpu : Int
  graph : Str
  dryRun : Bool
  runDir : Str
  always : Bool
  quiet : Bool
  clean : Bool
  style : Str
  cacheDir : Str
  hash : Bool
  commands : Bool
  updated : List Str

/-- A `NAME=VALUE` assignment (the `assign` struct of run.go). -/
structure Assign where
  name : Str
  value : Str
deriving DecidableEq

/-- Model of `strings.Cut(a, "=")`: split at the first `=`, or `none`
when there is no `=`. -/
def cutEq : Str → Option (Str × Str)
  | [] => none
  | c :: r =>
    if c = '=' then some ([], r)
    else (cutEq r).map (fun p => (c :: p.1, p.2))

/-- Model of `makeAssigns` (run.go): partition the arguments, in order,
into `NAME=VALUE` assignments and the remaining (target) arguments. -/
def makeAssigns : List Str → List Assign × List Str
  | [] => ([], [])
  | a :: rest =>
    let p := makeAssigns rest
    match cutEq a with
    | some bafter => (⟨bafter.1, bafter.2⟩ :: p.1, p.2)
    | none => (p.1, a :: p.2)

/-- Model of `strings.Join(l, " ")`. -/
def joinSp (l : List Str) : Str := List.intercalate [' '] l

/-- Attribute set of a rule (spec §3; `rules.AttrSet`).  `Run`
constructs the synthetic `:all` rule with `Virtual`, `NoMeta` and
`Rebuild` set and every other attribute at its zero value. -/
structure AttrSet where
  virtual : Bool := false
  noMeta : Bool := false
  rebuild : Bool := false
  quiet : Bool := false
  keepGoing : Bool := false
  noFail : Bool := false
  linked : Bool := false
  dep : Option Str := none
deriving DecidableEq

/-- Modelled from the spec: `rules.NewDirectRule` (rules package, not
under src/) packages targets, prerequisites, recipe and attribute set
into a direct-rule value (spec §3, "Rule": targets, prerequisites,
recipe, attributes). -/
structure DirectRule where
  targets : List Str
  prereqs : List Str
  recipe : List Str
  attrs : AttrSet
deriving DecidableEq

/-- A rule in a rule set: either a rule produced by the external
rule-text parser (opaque token) or a direct rule added by `Run`. -/
inductive Rule where
  | parsed (tok : Str)
  | direct (r : DirectRule)
deriving DecidableEq

/-- Modelled from the spec: a rule set is a named, ordered collection of
rules (spec §3, "RuleSet"); `rules.RuleSet.Add` appends a rule at the
end. -/
abbrev RS := List Rule

/-- A rule block held by the scripting host (contents plus source
position), as consumed by `getRuleSets`. -/
structure LRule where
  contents : Str
  file : Str
  line : Nat
deriving DecidableEq

/-- The scripting host's rule-set table: `vm.GetRuleSet` is lookup by
name. -/
abbrev LuaVM := List (Str × List LRule)

/-- Modelled from the spec: `rules.ParseInto` (rules package, not under
src/) parses one block of rule-language text, appending the parsed
rules to the rule set under construction and returning the names of
further rule sets referenced by the text (spec §4.2), or fails with a
parse error (spec §7, "ParseError"), which `getRuleSets` propagates. -/
structure ParseFn where
  run : Str → Str → Nat → Except Str (List Str × List Str)

/-- The `rulesets` memoization map of `getRuleSets`. -/
abbrev RMap := List (Str × RS)

/-- Association-list lookup (Go map indexing / `vm.GetRuleSet`). -/
def lookupA {α : Type} (k : Str) : List (Str × α) → Option α
  | [] => none
  | kv :: rest => if kv.1 = k then some kv.2 else lookupA k rest

/-- Key membership in an association list. -/
def keyMem {α : Type} (k : Str) (m : List (Str × α)) : Bool :=
  (lookupA k m).isSome

/-- Go map update (used for `rs.Add`, which mutates the rule set stored
in the `rulesets` map in place). -/
def updateA {α : Type} (k : Str) (v : α) : List (Str × α) → List (Str × α)
  | [] => [(k, v)]
  | kv :: rest => if kv.1 = k then (k, v) :: rest else kv :: updateA k v rest

/-- The per-rule-set parsing loop of `getRuleSets`: `ParseInto` every
block in order, collecting the parsed rules and the referenced rule-set
names, and returning the first parse error (the source's inner loop
returns `err` as soon as one block fails to parse). -/
def parseBlocks (pf : ParseFn) : List LRule → Except Str (RS × List Str)
  | [] => .ok ([], [])
  | lr :: rest =>
    match pf.run lr.contents lr.file lr.line with
    | .error e => .error e
    | .ok r =>
      match parseBlocks pf rest with
      | .error e => .error e
      | .ok p => .ok (r.1.map Rule.parsed ++ p.1, r.2 ++ p.2)

/-- Errors of `getRuleSets`: the "ruleset not found" error of the
source, the propagated `ParseInto` error, plus the fuel marker of the
embedding (proved unreachable). -/
inductive GErr where
  | notFound (s : Str)
  | parseErr (e : Str)
  | fuel
deriving DecidableEq

/-- Result of `getRuleSets`: the error-or-map outcome, plus a ghost log
of the rule-set names handed to `ParseInto`, in order. -/
structure GRes where
  res : Except GErr RMap
  parsed : List Str

/-- Number of rule-set names of the scripting host not yet recorded in
the memoization map; an upper bound on the recursion depth of
`getRuleSets`. -/
def missing (vm : LuaVM) (m : RMap) : Nat :=
  (vm.map Prod.fst).countP (fun k => !keyMem k m)

/-- The loop body of `getRuleSets` (run.go): resolve every name in the
list that is not yet recorded, parse its blocks (returning the parse
error if one fails), record it, recurse (as `f`) on the referenced
names, and continue with the rest of the list on the map the recursion
produced. -/
def gRSLoop (pf : ParseFn) (vm : LuaVM) (f : List Str → RMap → GRes) :
    List Str → RMap → GRes
  | [], m => ⟨.ok m, []⟩
  | set :: rest, m =>
    if keyMem set m then gRSLoop pf vm f rest m
    else
      match lookupA set vm with
      | none => ⟨.error (.notFound set), []⟩
      | some blocks =>
        match parseBlocks pf blocks with
        | .error e => ⟨.error (.parseErr e), [set]⟩
        | .ok pr =>
          let r1 := f pr.2 ((set, pr.1) :: m)
          match r1.res with
          | .error e => ⟨.error e, set :: r1.parsed⟩
          | .ok m2 =>
            let r2 := gRSLoop pf vm f rest m2
            ⟨r2.res, set :: r1.parsed ++ r2.parsed⟩

/-- `getRuleSets` at bounded recursion depth.  The `Nat` argument is a
ghost of the embedding: the Go function recurses once per newly
recorded rule set, so a depth of `missing vm m + 1` always suffices
(`getRuleSets_spec`); the fuel-exhaustion outcome is proved
unreachable. -/
def gRSGo (pf : ParseFn) (vm : LuaVM) : Nat → List Str → RMap → GRes
  | 0, _, _ => ⟨.error .fuel, []⟩
  | n + 1, sets, m => gRSLoop pf vm (gRSGo pf vm n) sets m

/-- Model of `getRuleSets` (run.go) as called by `Run`: empty initial
memoization map, recursion depth `missing vm [] + 1`. -/
def getRuleSets (pf : ParseFn) (vm : LuaVM) (sets : List Str) : GRes :=
  gRSGo pf vm (missing vm [] + 1) sets []

/-- Transitive referencing among rule sets: `k` is referenced starting
from the initial name list `sets` (directly, or through the reference
lists returned by successfully parsing a referenced rule set that
exists in the scripting host). -/
inductive Refd (pf : ParseFn) (vm : LuaVM) : List Str → Str → Prop where
  | base {sets : List Str} {k : Str} : k ∈ sets → Refd pf vm sets k
  | step {sets : List Str} {j k : Str} {bl : List LRule}
      {pr : RS × List Str} :
      Refd pf vm sets j → lookupA j vm = some bl →
      parseBlocks pf bl = Except.ok pr →
      k ∈ pr.2 → Refd pf vm sets k

/-- The `rules.Options` record `Run` passes to `rules.NewExecutor`. -/
structure ExOptions where
  noExec : Bool
  shell : Str
  abortOnError : Bool
  buildAll : Bool
  hash : Bool
deriving DecidableEq

/-- The options value constructed at the `rules.NewExecutor` call site
in `Run`: `NoExec: flags.DryRun, Shell: "sh", AbortOnError: true,
BuildAll: flags.Always, Hash: flags.Hash`. -/
def mkOptions (flags : Flags) : ExOptions :=
  ⟨flags.dryRun, cs "sh", true, flags.always, flags.hash⟩

/-- The printer styles `Run` dispatches on. -/
inductive PrinterKind where
  | steps
  | progress
  | basic
deriving DecidableEq

/-- The printer switch of `Run` (`steps`, `progress`, default basic). -/
def mkPrinter (style : Str) : PrinterKind :=
  if style = cs "steps" then .steps
  else if style = cs "progress" then .progress
  else .basic

/-- Where the database file lives: `rules.NewDatabase(".knit")` in the
working directory, or `rules.NewCacheDatabase(dir, wd)` keyed by the
working directory. -/
inductive DbLoc where
  | workdir (path : Str)
  | cache (dir : Str) (wd : Str)
deriving DecidableEq

/-- Database contents (spec §3, "Database record"): a keyed store,
embedded as an association list of opaque entries. -/
abbrev Db := List (Str × Str)

/-- The error outcomes of `Run`, in source order. -/
inductive RunErr where
  | needCore
  | openErr (e : Str)
  | evalErr (e : Str)
  | notRuleSet (t : Str)
  | rulesetNotFound (s : Str)
  | parseErr (e : Str)
  | fuelErr
  | noTargets
  | graphErr (e : Str)
  | targetNotFound (ts : List Str)
  | visErr (e : Str)
  | expandErr (e : Str)
  | commandsErr (e : Str)
  | getwdErr (e : Str)
  | saveErr (e : Str)
  | execErr (e : Str)
  | nothingToDo (ts : Str)
deriving DecidableEq

/-- Ghost trace of the externally visible steps `Run` performs, in
order. -/
inductive RunEv where
  | chdir (d : Str)
  | openFile (f : Str)
  | cliVar (n v : Str)
  | envVar (n v : Str)
  | evalFile
  | addRule (r : DirectRule)
  | buildGraph
  | visualize
  | expandRecipes
  | writeCompileCommands
  | openDatabase (loc : DbLoc)
  | mkExecutor (p : PrinterKind) (opts : ExOptions)
  | clean
  | exec
  | saveDb
deriving DecidableEq

/-- The external collaborators of `Run`, as abstract outcomes.  Fields
for code of this repository that is not under src/ are modelled from
the spec and say so; fields for the operating system and the Lua host
are opaque outcomes. -/
structure RunEnv where
  /-- `os.Stat` success, as tested by `exists()`. -/
  fileExists : Str → Bool
  /-- Modelled from the spec: `DefaultBuildFile()` (not under src/)
  searches the default build file up the directory hierarchy and
  reports whether one was found (spec §6: "default `knitfile`, searched
  up the directory hierarchy"). -/
  defaultBuildFile : Option Str
  /-- `os.Open` outcome per path (`some` is the error). -/
  openRes : Str → Option Str
  /-- `os.Environ()`. -/
  environ : List Str
  /-- `vm.Eval` outcome; on success an opaque Lua value. -/
  evalRes : Except Str Str
  /-- `LToRuleSet`: the rule-set name carried by the Lua value, if it is
  a rule set. -/
  toRuleSet : Str → Option Str
  /-- `lval.Type()`, for the "eval returned %s, expected ruleset"
  message. -/
  lvalType : Str → Str
  /-- The scripting host's rule sets (`vm.GetRuleSet`). -/
  vm : LuaVM
  /-- The external rule-text parser (see `ParseFn`). -/
  parseFn : ParseFn
  /-- Modelled from the spec: `rules.RuleSet.MainTarget` (not under
  src/) yields the first plain target of the first rule, the default
  target (spec §3, "RuleSet"); the zero string when there is none. -/
  mainTarget : RS → Str
  /-- `rules.NewGraphSet` outcome on the final rule-set map, root
  rule-set name and updated-overrides list: the size of the constructed
  graph, or a construction error (spec §4.3; not under src/). -/
  graphRes : RMap → Str → List Str → Except Str Nat
  /-- `visualize` outcome. -/
  visRes : Option Str
  /-- `graph.ExpandRecipes` outcome. -/
  expandRes : Option Str
  /-- Outcome of writing `compile_commands.json`. -/
  commandsRes : Option Str
  /-- `os.Getwd`. -/
  getwd : Except Str Str
  /-- `xdg.CacheHome` joined with `knit`. -/
  xdgCacheKnit : Str
  /-- On-disk database contents per location before this invocation. -/
  disk : DbLoc → Db
  /-- `ex.Exec(graph.Graph)` outcome: (`rebuilt`, error). -/
  execRes : ExOptions → Bool × Option Str
  /-- The executor's effect on the in-memory database when it actually
  runs recipes (abstract). -/
  execDb : ExOptions → Db → Db
  /-- `db.Save()` outcome. -/
  saveRes : Option Str

/-- Modelled from the spec: the executor (spec §4.5; the rules package
is not under src/) records results into the in-memory database only
when it runs recipes — "Dry-run: recipes are printed through the
Printer but not executed; the database is not mutated."  With `NoExec`
set the database is returned unchanged; otherwise the effect is the
abstract one supplied by the environment. -/
def execDbEffect (env : RunEnv) (opts : ExOptions) (db : Db) : Db :=
  if opts.noExec then db else env.execDb opts db

/-- `db.Save()` persists the in-memory contents at the database's
location; the save is atomic (write-to-temp plus rename, spec §4.4), so
on failure the disk is unchanged. -/
def updateDisk (d : DbLoc → Db) (loc : DbLoc) (v : Db) : DbLoc → Db :=
  fun l => if l = loc then v else d l

/-- Result of one `Run` invocation: the returned error (or `none`), the
ghost event trace, the on-disk database contents afterwards, and ghost
observations of intermediate values (the rule file passed to `os.Open`,
the requested target list, the root rule set, the constructed graph's
size). -/
structure RunOut where
  result : Option RunErr
  events : List RunEv
  disk : DbLoc → Db
  chosenFile : Option Str
  reqTargets : List Str
  rootRS : RS
  graphSize : Option Nat

/-- Lines 1597–1645 of the source (printer and executor construction,
the clean short-circuit, `ex.Exec`, `db.Save()` and the tail returns). -/
def runExecSave (env : RunEnv) (flags : Flags) (ev : List RunEv) (kf : Str)
    (targets : List Str) (rs : RS) (size : Nat) (loc : DbLoc) : RunOut :=
  let printer := mkPrinter flags.style
  let opts := mkOptions flags
  let ev1 := ev ++ [.mkExecutor printer opts]
  if flags.clean then
    ⟨none, ev1 ++ [.clean], env.disk, some kf, targets, rs, some size⟩
  else
    let er := env.execRes opts
    let db1 := execDbEffect env opts (env.disk loc)
    let ev3 := (ev1 ++ [.exec]) ++ [.saveDb]
    match env.saveRes with
    | some e => ⟨some (.saveErr e), ev3, env.disk, some kf, targets, rs, some size⟩
    | none =>
      let disk2 := updateDisk env.disk loc db1
      match er.2 with
      | some e => ⟨some (.execErr e), ev3, disk2, some kf, targets, rs, some size⟩
      | none =>
        if er.1 then ⟨none, ev3, disk2, some kf, targets, rs, some size⟩
        else ⟨some (.nothingToDo (joinSp targets)), ev3, disk2, some kf, targets,
          rs, some size⟩

/-- Lines 1582–1595 of the source: database location selection
(`.knit` in the working directory, or the cache directory keyed by
`os.Getwd`, with `$cache` resolved through xdg). -/
def runDb (env : RunEnv) (flags : Flags) (ev : List RunEv) (kf : Str)
    (targets : List Str) (rs : RS) (size : Nat) : RunOut :=
  if flags.cacheDir = cs "." || flags.cacheDir = [] then
    let loc := DbLoc.workdir (cs ".knit")
    runExecSave env flags (ev ++ [.openDatabase loc]) kf targets rs size loc
  else
    match env.getwd with
    | .error e => ⟨some (.getwdErr e), ev, env.disk, some kf, targets, rs, some size⟩
    | .ok wd =>
      let dir := if flags.cacheDir = cs "$cache" then env.xdgCacheKnit
        else flags.cacheDir
      let loc := DbLoc.cache dir wd
      runExecSave env flags (ev ++ [.openDatabase loc]) kf targets rs size loc

/-- Lines 1565–1580 of the source: recipe expansion
(`graph.ExpandRecipes`), then the optional `compile_commands.json`
export; then the database stage. -/
def runExpand (env : RunEnv) (flags : Flags) (ev : List RunEv) (kf : Str)
    (targets : List Str) (rs : RS) (size : Nat) : RunOut :=
  match env.expandRes with
  | some e => ⟨some (.expandErr e), ev, env.disk, some kf, targets, rs, some size⟩
  | none =>
    let ev2 := ev ++ [.expandRecipes]
    if flags.commands then
      match env.commandsRes with
      | some e =>
        ⟨some (.commandsErr e), ev2 ++ [.writeCompileCommands], env.disk,
          some kf, targets, rs, some size⟩
      | none =>
        runDb env flags (ev2 ++ [.writeCompileCommands]) kf targets rs size
    else runDb env flags ev2 kf targets rs size

/-- Lines 1558–1563 of the source: optional graph visualization, then
recipe expansion and the later stages. -/
def runPostGraph (env : RunEnv) (flags : Flags) (ev : List RunEv) (kf : Str)
    (targets : List Str) (rs : RS) (size : Nat) : RunOut :=
  if flags.graph = [] then runExpand env flags ev kf targets rs size
  else
    match env.visRes with
    | some e =>
      ⟨some (.visErr e), ev ++ [.visualize], env.disk, some kf, targets, rs,
        some size⟩
    | none => runExpand env flags (ev ++ [.visualize]) kf targets rs size

/-- The event of the optional `os.Chdir(flags.RunDir)` call (whose error
the source ignores). -/
def chdirEvents (flags : Flags) : List RunEv :=
  if flags.runDir = [] then [] else [.chdir flags.runDir]

/-- Events up to and including the `os.Open` of the rule file. -/
def evOpen (flags : Flags) (kf : Str) : List RunEv :=
  chdirEvents flags ++ [.openFile kf]

/-- Events up to and including the `cli` and `env` table population. -/
def evVars (env : RunEnv) (args : List Str) (flags : Flags) (kf : Str) :
    List RunEv :=
  (evOpen flags kf ++
    ((makeAssigns args).1).map (fun a => RunEv.cliVar a.name a.value)) ++
    ((makeAssigns env.environ).1).map (fun a => RunEv.envVar a.name a.value)

/-- Events up to and including `vm.Eval` of the rule file. -/
def evEval (env : RunEnv) (args : List Str) (flags : Flags) (kf : Str) :
    List RunEv :=
  evVars env args flags kf ++ [.evalFile]

/-- Events up to and including `rules.NewGraphSet` (after adding the
synthetic `:all` rule `r`). -/
def evGraph (env : RunEnv) (args : List Str) (flags : Flags) (kf : Str)
    (r : DirectRule) : List RunEv :=
  (evEval env args flags kf ++ [.addRule r]) ++ [.buildGraph]

/-- The rule-file selection of `Run` (lines 1483–1490): use the
title-cased knitfile name when that file exists; otherwise, when the
configured name does not exist and a default build file was found up the
directory hierarchy, use that. -/
def chooseKnitfile (env : RunEnv) (flags : Flags) : Str :=
  let kf1 := if env.fileExists (title flags.knitfile) then title flags.knitfile
    else flags.knitfile
  match env.defaultBuildFile with
  | some d => if !env.fileExists kf1 then d else kf1
  | none => kf1

/-- Model of `Run` (run.go lines 1474–1646). -/
def Run (env : RunEnv) (args : List Str) (flags : Flags) : RunOut :=
  let ev0 : List RunEv := chdirEvents flags
  if flags.ncpu ≤ 0 then
    ⟨some .needCore, ev0, env.disk, none, [], [], none⟩
  else
    let kf := chooseKnitfile env flags
    match env.openRes kf with
    | some e => ⟨some (.openErr e), ev0, env.disk, some kf, [], [], none⟩
    | none =>
      let targets0 := (makeAssigns args).2
      match env.evalRes with
      | .error e =>
        ⟨some (.evalErr e), evVars env args flags kf, env.disk, some kf, [],
          [], none⟩
      | .ok lval =>
        let ev3 := evEval env args flags kf
        match env.toRuleSet lval with
        | none =>
          ⟨some (.notRuleSet (env.lvalType lval)), ev3, env.disk, some kf, [],
            [], none⟩
        | some rsName =>
          match (getRuleSets env.parseFn env.vm [rsName]).res with
          | .error (.notFound s) =>
            ⟨some (.rulesetNotFound s), ev3, env.disk, some kf, [], [], none⟩
          | .error (.parseErr e) =>
            ⟨some (.parseErr e), ev3, env.disk, some kf, [], [], none⟩
          | .error .fuel =>
            ⟨some .fuelErr, ev3, env.disk, some kf, [], [], none⟩
          | .ok rulesets =>
            let rs := (lookupA rsName rulesets).getD []
            let targets := if targets0.isEmpty then [env.mainTarget rs]
              else targets0
            if targets.isEmpty then
              ⟨some .noTargets, ev3, env.disk, some kf, targets, rs, none⟩
            else
              let allRule : DirectRule :=
                ⟨[cs ":all"], targets, [],
                  { virtual := true, noMeta := true, rebuild := true }⟩
              let rulesets2 := updateA rsName (rs ++ [Rule.direct allRule]) rulesets
              let ev4 := evGraph env args flags kf allRule
              match env.graphRes rulesets2 rsName flags.updated with
              | .error e =>
                ⟨some (.graphErr e), ev4, env.disk, some kf, targets, rs, none⟩
              | .ok size =>
                if size = 1 then
                  ⟨some (.targetNotFound targets), ev4, env.disk, some kf,
                    targets, rs, some size⟩
                else runPostGraph env flags ev4 kf targets rs size

/-! ### Lemmas about `getRuleSets` -/

theorem keyMem_cons {α : Type} (k k2 : Str) (v : α) (m : List (Str × α)) :
    keyMem k ((k2, v) :: m) = (if k2 = k then true else keyMem k m) := by
  simp only [keyMem, lookupA]
  split <;> simp

theorem lookupA_some_mem {α : Type} {k : Str} {l : List (Str × α)} {v : α}
    (h : lookupA k l = some v) : k ∈ l.map Prod.fst := by
  induction l with
  | nil => simp [lookupA] at h
  | cons kv rest ih =>
    rw [lookupA] at h
    by_cases hk : kv.1 = k
    · rw [List.map_cons, hk]
      exact List.mem_cons_self k _
    · rw [if_neg hk] at h
      rw [List.map_cons]
      exact List.mem_cons_of_mem _ (ih h)

theorem countP_lt_of_witness {l : List Str} {p q : Str → Bool}
    (hpq : ∀ x ∈ l, p x = true → q x = true) {a : Str} (ha : a ∈ l)
    (hqa : q a = true) (hpa : p a = false) : l.countP p < l.countP q := by
  induction l with
  | nil => simp at ha
  | cons b rest ih =>
    rw [List.countP_cons, List.countP_cons]
    have hple : rest.countP p ≤ rest.countP q :=
      List.countP_mono_left (fun x hx => hpq x (List.mem_cons_of_mem b hx))
    rcases List.mem_cons.mp ha with hab | ha2
    · have hpb : p b = false := hab ▸ hpa
      have hqb : q b = true := hab ▸ hqa
      simp only [hpb, hqb]
      simp only [Bool.false_eq_true, if_false, if_true]
      omega
    · have hlt : rest.countP p < rest.countP q :=
        ih (fun x hx => hpq x (List.mem_cons_of_mem b hx)) ha2
      have hb2 : (if p b = true then 1 else 0) ≤ (if q b = true then 1 else 0) := by
        by_cases hpb : p b = true
        · rw [if_pos hpb, if_pos (hpq b (List.mem_cons_self b rest) hpb)]
        · rw [if_neg hpb]
          omega
      omega

theorem missing_le_of_sub (vm : LuaVM) {m m2 : RMap}
    (h : ∀ k, keyMem k m = true → keyMem k m2 = true) :
    missing vm m2 ≤ missing vm m := by
  apply List.countP_mono_left
  intro x _ hx
  have hx2 : keyMem x m2 = false := by
    cases hv : keyMem x m2
    · rfl
    · rw [hv] at hx
      exact absurd hx (by simp)
  cases hc : keyMem x m
  · simp
  · exact absurd (h x hc) (by simp [hx2])

theorem missing_lt_insert (vm : LuaVM) {m : RMap} {set : Str} (rsv : RS)
    (hvm : set ∈ vm.map Prod.fst) (hmem : keyMem set m = false) :
    missing vm ((set, rsv) :: m) < missing vm m := by
  refine countP_lt_of_witness ?_ hvm ?_ ?_
  · intro x _ hx
    have hx2 : keyMem x ((set, rsv) :: m) = false := by
      cases hv : keyMem x ((set, rsv) :: m)
      · rfl
      · rw [hv] at hx
        exact absurd hx (by simp)
    rw [keyMem_cons] at hx2
    split at hx2
    · exact absurd hx2 (by simp)
    · simp [hx2]
  · simp [hmem]
  · rw [keyMem_cons, if_pos rfl]
    simp

theorem gRSGo_succ_nil (pf : ParseFn) (vm : LuaVM) (n : Nat) (m : RMap) :
    gRSGo pf vm (n + 1) [] m = ⟨.ok m, []⟩ := rfl

theorem gRSGo_succ_cons (pf : ParseFn) (vm : LuaVM) (n : Nat) (set : Str)
    (rest : List Str) (m : RMap) :
    gRSGo pf vm (n + 1) (set :: rest) m =
      if keyMem set m then gRSGo pf vm (n + 1) rest m
      else
        match lookupA set vm with
        | none => ⟨.error (.notFound set), []⟩
        | some blocks =>
          match parseBlocks pf blocks with
          | .error e => ⟨.error (.parseErr e), [set]⟩
          | .ok pr =>
            let r1 := gRSGo pf vm n pr.2 ((set, pr.1) :: m)
            match r1.res with
            | .error e => ⟨.error e, set :: r1.parsed⟩
            | .ok m2 =>
              let r2 := gRSGo pf vm (n + 1) rest m2
              ⟨r2.res, set :: r1.parsed ++ r2.parsed⟩ := rfl

/-- Structural invariant of `getRuleSets`: the ghost log of parsed
rule-set names has no duplicates (memoization: each name is parsed at
most once), every parsed name was previously unrecorded, and on success
the final map's keys are exactly the initial keys plus the parsed
names. -/
theorem gRSGo_inv (pf : ParseFn) (vm : LuaVM) :
    ∀ (n : Nat) (sets : List Str) (m : RMap),
      (gRSGo pf vm n sets m).parsed.Nodup ∧
      (∀ k ∈ (gRSGo pf vm n sets m).parsed, keyMem k m = false) ∧
      (∀ m2, (gRSGo pf vm n sets m).res = Except.ok m2 →
        ∀ k, keyMem k m2 = true ↔
          (keyMem k m = true ∨ k ∈ (gRSGo pf vm n sets m).parsed)) := by
  intro n
  induction n with
  | zero =>
    intro sets m
    refine ⟨by simp [gRSGo], by simp [gRSGo], ?_⟩
    intro m2 h
    simp [gRSGo] at h
  | succ n ihn =>
    intro sets
    induction sets with
    | nil =>
      intro m
      rw [gRSGo_succ_nil]
      refine ⟨List.nodup_nil, by simp, ?_⟩
      intro m2 h k
      cases h
      simp
    | cons set rest ihs =>
      intro m
      rw [gRSGo_succ_cons]
      by_cases hmem : keyMem set m = true
      · rw [if_pos hmem]
        exact ihs m
      · rw [if_neg hmem]
        cases hlk : lookupA set vm with
        | none =>
          refine ⟨List.nodup_nil, by simp, ?_⟩
          intro m2 h
          cases h
        | some blocks =>
          simp only
          cases hpb : parseBlocks pf blocks with
          | error e =>
            simp only
            refine ⟨List.nodup_singleton set, ?_, ?_⟩
            · intro k hk
              rcases List.mem_cons.mp hk with rfl | hk2
              · simpa using hmem
              · cases hk2
            · intro m2 h
              cases h
          | ok pr =>
            simp only
            obtain ⟨ih1n, ih2n, ih3n⟩ :=
              ihn pr.2 ((set, pr.1) :: m)
            have hsetm1 : keyMem set ((set, pr.1) :: m) = true := by
              rw [keyMem_cons, if_pos rfl]
            have hm1_of_m : ∀ k, keyMem k m = true →
                keyMem k ((set, pr.1) :: m) = true := by
              intro k hk
              rw [keyMem_cons]
              split <;> simp [hk]
            have hsetnp1 : set ∉
                (gRSGo pf vm n pr.2
                  ((set, pr.1) :: m)).parsed := by
              intro hc
              exact absurd (ih2n set hc) (by simp [hsetm1])
            have hp1m : ∀ k, k ∈
                (gRSGo pf vm n pr.2
                  ((set, pr.1) :: m)).parsed →
                keyMem k m = false := by
              intro k hk
              have := ih2n k hk
              rw [keyMem_cons] at this
              split at this
              · exact absurd this (by simp)
              · exact this
            cases hr1 : (gRSGo pf vm n pr.2
                ((set, pr.1) :: m)).res with
            | error e =>
              refine ⟨?_, ?_, ?_⟩
              · exact List.nodup_cons.mpr ⟨hsetnp1, ih1n⟩
              · intro k hk
                rcases List.mem_cons.mp hk with rfl | hk2
                · simpa using hmem
                · exact hp1m k hk2
              · intro m2 h
                cases h
            | ok m2 =>
              obtain ⟨ih1s, ih2s, ih3s⟩ := ihs m2
              have hA : ∀ k, keyMem k m2 = true ↔
                  (keyMem k ((set, pr.1) :: m) = true ∨
                    k ∈ (gRSGo pf vm n pr.2
                      ((set, pr.1) :: m)).parsed) :=
                ih3n m2 hr1
              have hsetm2 : keyMem set m2 = true :=
                (hA set).mpr (Or.inl hsetm1)
              have hp1m2 : ∀ k, k ∈
                  (gRSGo pf vm n pr.2
                    ((set, pr.1) :: m)).parsed →
                  keyMem k m2 = true := by
                intro k hk
                exact (hA k).mpr (Or.inr hk)
              refine ⟨?_, ?_, ?_⟩
              · refine List.nodup_cons.mpr ⟨?_, ?_⟩
                · intro hc
                  rcases List.mem_append.mp hc with hc1 | hc2
                  · exact hsetnp1 hc1
                  · exact absurd (ih2s set hc2) (by simp [hsetm2])
                · refine List.Nodup.append ih1n ih1s ?_
                  intro k hk1 hk2
                  exact absurd (ih2s k hk2) (by simp [hp1m2 k hk1])
              · intro k hk
                rcases List.mem_cons.mp hk with rfl | hk2
                · simpa using hmem
                · rcases List.mem_append.mp hk2 with hk3 | hk4
                  · exact hp1m k hk3
                  · have h5 := ih2s k hk4
                    have h6 := (hA k).not
                    by_contra hc
                    simp only [Bool.not_eq_true] at hc
                    have : keyMem k m = true := by
                      revert hc
                      cases keyMem k m <;> simp
                    exact absurd ((hA k).mpr (Or.inl (hm1_of_m k this)))
                      (by simp [h5])
              · intro m3 h3 k
                have hS := ih3s m3 h3 k
                rw [hS]
                rw [hA k]
                rw [keyMem_cons]
                constructor
                · rintro ((h4 | h5) | h6)
                  · split at h4
                    · rename_i heq
                      exact Or.inr (by simp [heq])
                    · exact Or.inl h4
                  · exact Or.inr (List.mem_cons.mpr (Or.inr (List.mem_append.mpr
                      (Or.inl h5))))
                  · exact Or.inr (List.mem_cons.mpr (Or.inr (List.mem_append.mpr
                      (Or.inr h6))))
                · rintro (h4 | h5)
                  · refine Or.inl (Or.inl ?_)
                    split
                    · rfl
                    · exact h4
                  · rcases List.mem_cons.mp h5 with rfl | h6
                    · exact Or.inl (Or.inl (by rw [if_pos rfl]))
                    · rcases List.mem_append.mp h6 with h7 | h8
                      · exact Or.inl (Or.inr h7)
                      · exact Or.inr h8

/-- Keys only grow along `getRuleSets`. -/
theorem gRSGo_keyMono (pf : ParseFn) (vm : LuaVM) (n : Nat) (sets : List Str)
    {m m2 : RMap} (h : (gRSGo pf vm n sets m).res = Except.ok m2) :
    ∀ k, keyMem k m = true → keyMem k m2 = true := by
  intro k hk
  exact ((gRSGo_inv pf vm n sets m).2.2 m2 h k).mpr (Or.inl hk)

/-- `Refd` is monotone in the initial name list. -/
theorem Refd_mono_cons (pf : ParseFn) (vm : LuaVM) (set : Str)
    (rest : List Str) : ∀ k, Refd pf vm rest k → Refd pf vm (set :: rest) k := by
  intro k h
  induction h with
  | base hk => exact Refd.base (List.mem_cons_of_mem set hk)
  | step _ hlk hpb hkr ih => exact Refd.step ih hlk hpb hkr

/-- Names referenced from the reference list of a rule set found under
`set` and parsed successfully are referenced from any list headed by
`set`. -/
theorem Refd_lift (pf : ParseFn) (vm : LuaVM) (set : Str) (rest : List Str)
    {bl : List LRule} {pr : RS × List Str} (hlk : lookupA set vm = some bl)
    (hpb : parseBlocks pf bl = Except.ok pr) :
    ∀ k, Refd pf vm pr.2 k → Refd pf vm (set :: rest) k := by
  intro k h
  induction h with
  | base hk =>
    exact Refd.step (Refd.base (List.mem_cons_self set rest)) hlk hpb hk
  | step _ hlk2 hpb2 hkr ih => exact Refd.step ih hlk2 hpb2 hkr

/-- Fuel adequacy and error characterization of `getRuleSets`: with
recursion depth at least `missing vm m + 1` the fuel marker is never
returned (the recursion terminates within the bound on every input,
cyclically referencing rule sets included); a "ruleset not found" error
names a transitively referenced rule set absent from the scripting
host; a propagated parse error is the parse failure of a transitively
referenced rule set present in the host; and on success every requested
name is recorded, and every newly recorded name was found in the host,
parsed successfully, with all the names it references recorded as
well. -/
theorem gRSGo_fuel (pf : ParseFn) (vm : LuaVM) :
    ∀ (n : Nat) (sets : List Str) (m : RMap), missing vm m + 1 ≤ n →
      ((gRSGo pf vm n sets m).res ≠ Except.error GErr.fuel) ∧
      (∀ k, (gRSGo pf vm n sets m).res = Except.error (GErr.notFound k) →
        Refd pf vm sets k ∧ lookupA k vm = none) ∧
      (∀ e, (gRSGo pf vm n sets m).res = Except.error (GErr.parseErr e) →
        ∃ k bl, Refd pf vm sets k ∧ lookupA k vm = some bl ∧
          parseBlocks pf bl = Except.error e) ∧
      (∀ m2, (gRSGo pf vm n sets m).res = Except.ok m2 →
        (∀ k ∈ sets, keyMem k m2 = true) ∧
        (∀ j, keyMem j m2 = true → keyMem j m = false →
          ∃ bl pr, lookupA j vm = some bl ∧
            parseBlocks pf bl = Except.ok pr ∧
            ∀ r ∈ pr.2, keyMem r m2 = true)) := by
  intro n
  induction n with
  | zero =>
    intro sets m hn
    omega
  | succ n ihn =>
    intro sets
    induction sets with
    | nil =>
      intro m hn
      rw [gRSGo_succ_nil]
      refine ⟨by simp, by simp, by simp, ?_⟩
      intro m2 h
      cases h
      refine ⟨by simp, ?_⟩
      intro j hj1 hj2
      rw [hj1] at hj2
      cases hj2
    | cons set rest ihs =>
      intro m hn
      rw [gRSGo_succ_cons]
      by_cases hmem : keyMem set m = true
      · rw [if_pos hmem]
        obtain ⟨a1, a2, a3, a4⟩ := ihs m hn
        refine ⟨a1, ?_, ?_, ?_⟩
        · intro k hk
          obtain ⟨h1, h2⟩ := a2 k hk
          exact ⟨Refd_mono_cons pf vm set rest k h1, h2⟩
        · intro e he
          obtain ⟨k, bl, h1, h2, h3⟩ := a3 e he
          exact ⟨k, bl, Refd_mono_cons pf vm set rest k h1, h2, h3⟩
        · intro m2 h2
          obtain ⟨b1, b2⟩ := a4 m2 h2
          refine ⟨?_, b2⟩
          intro k hk
          rcases List.mem_cons.mp hk with rfl | hk2
          · exact gRSGo_keyMono pf vm (n + 1) rest h2 k hmem
          · exact b1 k hk2
      · rw [if_neg hmem]
        cases hlk : lookupA set vm with
        | none =>
          refine ⟨by simp, ?_, ?_, ?_⟩
          · intro k hk
            simp only [GErr.notFound.injEq] at hk
            injection hk with hk2
            injection hk2 with hk3
            subst hk3
            exact ⟨Refd.base (List.mem_cons_self set rest), hlk⟩
          · intro e he
            injection he with he2
            cases he2
          · intro m2 h2
            cases h2
        | some blocks =>
          simp only
          cases hpb : parseBlocks pf blocks with
          | error e0 =>
            simp only
            refine ⟨by simp, ?_, ?_, ?_⟩
            · intro k hk
              injection hk with hk2
              cases hk2
            · intro e he
              injection he with he2
              injection he2 with he3
              subst he3
              exact ⟨set, blocks, Refd.base (List.mem_cons_self set rest),
                hlk, hpb⟩
            · intro m2 h2
              cases h2
          | ok pr =>
            simp only
            have hmemF : keyMem set m = false := by
              cases hv : keyMem set m
              · rfl
              · exact absurd hv hmem
            have hlt : missing vm ((set, pr.1) :: m) < missing vm m :=
              missing_lt_insert vm pr.1 (lookupA_some_mem hlk) hmemF
            have hadq : missing vm ((set, pr.1) :: m) + 1 ≤ n := by
              omega
            obtain ⟨f1, f2, f3, f4⟩ := ihn pr.2 ((set, pr.1) :: m) hadq
            cases hr1 : (gRSGo pf vm n pr.2 ((set, pr.1) :: m)).res with
            | error e =>
              refine ⟨?_, ?_, ?_, ?_⟩
              · intro hc
                simp only at hc
                injection hc with hc2
                subst hc2
                exact f1 hr1
              · intro k hk
                simp only at hk
                injection hk with hk2
                subst hk2
                obtain ⟨h1, h2⟩ := f2 k hr1
                exact ⟨Refd_lift pf vm set rest hlk hpb k h1, h2⟩
              · intro e2 he2
                simp only at he2
                injection he2 with he3
                subst he3
                obtain ⟨k, bl, h1, h2, h3⟩ := f3 e2 hr1
                exact ⟨k, bl, Refd_lift pf vm set rest hlk hpb k h1, h2, h3⟩
              · intro m2 h2
                cases h2
            | ok m2 =>
              have hm2mono : ∀ k, keyMem k ((set, pr.1) :: m) = true →
                  keyMem k m2 = true :=
                gRSGo_keyMono pf vm n pr.2 hr1
              have hadq2 : missing vm m2 + 1 ≤ n + 1 := by
                have := missing_le_of_sub vm hm2mono
                omega
              obtain ⟨g1, g2, g3, g4⟩ := ihs m2 hadq2
              refine ⟨g1, ?_, ?_, ?_⟩
              · intro k hk
                obtain ⟨h1, h2⟩ := g2 k hk
                exact ⟨Refd_mono_cons pf vm set rest k h1, h2⟩
              · intro e he
                obtain ⟨k, bl, h1, h2, h3⟩ := g3 e he
                exact ⟨k, bl, Refd_mono_cons pf vm set rest k h1, h2, h3⟩
              · intro m3 h3
                obtain ⟨b1, b2⟩ := g4 m3 h3
                have hm3mono : ∀ k, keyMem k m2 = true → keyMem k m3 = true :=
                  gRSGo_keyMono pf vm (n + 1) rest h3
                have hsetm2 : keyMem set m2 = true := by
                  apply hm2mono
                  rw [keyMem_cons, if_pos rfl]
                obtain ⟨i1, i2⟩ := f4 m2 hr1
                refine ⟨?_, ?_⟩
                · intro k hk
                  rcases List.mem_cons.mp hk with rfl | hk2
                  · exact hm3mono k hsetm2
                  · exact b1 k hk2
                · intro j hj1 hj2
                  by_cases hjm2 : keyMem j m2 = true
                  · by_cases hjm1 : keyMem j ((set, pr.1) :: m) = true
                    · have hjset : j = set := by
                        rw [keyMem_cons] at hjm1
                        by_cases hjs : set = j
                        · exact hjs.symm
                        · rw [if_neg hjs] at hjm1
                          rw [hjm1] at hj2
                          cases hj2
                      subst hjset
                      refine ⟨blocks, pr, hlk, hpb, ?_⟩
                      intro r hr
                      exact hm3mono r (i1 r hr)
                    · have hjm1F : keyMem j ((set, pr.1) :: m) = false := by
                        cases hv : keyMem j ((set, pr.1) :: m)
                        · rfl
                        · exact absurd hv hjm1
                      obtain ⟨bl, prj, hbl1, hbl2, hbl3⟩ := i2 j hjm2 hjm1F
                      refine ⟨bl, prj, hbl1, hbl2, ?_⟩
                      intro r hr
                      exact hm3mono r (hbl3 r hr)
                  · have hjm2F : keyMem j m2 = false := by
                      cases hv : keyMem j m2
                      · rfl
                      · exact absurd hv hjm2
                    exact b2 j hj1 hjm2F

/-- A parser model for the cyclic demonstration: every block references
the rule set named by the block's contents and parses no rules. -/
def pfCyc : ParseFn := ⟨fun contents _ _ => .ok ([], [contents])⟩

/-- Two rule sets referencing each other: `a` references `b` and `b`
references `a`. -/
def vmCyc : LuaVM :=
  [(cs "a", [⟨cs "b", cs "f", 1⟩]), (cs "b", [⟨cs "a", cs "f", 2⟩])]

/-- A rule set referencing a name the scripting host does not have. -/
def vmMissing : LuaVM := [(cs "a", [⟨cs "b", cs "f", 1⟩])]

/-- A parser model in which the block `B` fails to parse and every
other block parses no rules and references the rule sets `b` and
`m`. -/
def pfMix : ParseFn :=
  ⟨fun contents _ _ =>
    if contents = cs "B" then Except.error (cs "parse failure")
    else Except.ok ([], [cs "b", cs "m"])⟩

/-- Rule set `a` (single block `A`) references `b` and the absent name
`m`; rule set `b` (single block `B`) fails to parse. -/
def vmMix : LuaVM :=
  [(cs "a", [⟨cs "A", cs "f", 1⟩]), (cs "b", [⟨cs "B", cs "f", 2⟩])]

/-- C5, counterexample to the claim as stated: the transitively
referenced name `m` has no rule set in the scripting host, yet
`getRuleSets` does not return a "ruleset not found" error — parsing the
referenced rule set `b` fails first and that parse error is what
`getRuleSets` returns, so the "not found" outcome is not equivalent to
the absence of a referenced name. -/
theorem getRuleSets_parse_preempts_counterexample :
    (getRuleSets pfMix vmMix [cs "a"]).res =
      Except.error (GErr.parseErr (cs "parse failure")) ∧
    Refd pfMix vmMix [cs "a"] (cs "m") ∧
    lookupA (cs "m") vmMix = none ∧
    (∀ s, (getRuleSets pfMix vmMix [cs "a"]).res ≠
      Except.error (GErr.notFound s)) := by
  refine ⟨rfl, ?_, rfl, ?_⟩
  · exact Refd.step (Refd.base (List.mem_cons_self _ _)) rfl rfl (by decide)
  · intro s h
    rw [show (getRuleSets pfMix vmMix [cs "a"]).res =
      Except.error (GErr.parseErr (cs "parse failure")) from rfl] at h
    injection h with h2
    cases h2

/-- C5 (amended): `getRuleSets` parses each rule-set name at most once
(the ghost log of `ParseInto` calls has no duplicates); it terminates
on every input — the recursion-depth marker of the embedding is never
returned, and on the cyclically referencing pair `a ↔ b` it returns
both rule sets, parsing each once; a "ruleset not found" error names a
transitively referenced name absent from the scripting host; a
propagated parse error is the parse failure of a transitively
referenced rule set present in the host; and it returns some error
exactly when a transitively referenced name is absent from the host or
a transitively referenced rule set fails to parse. -/
theorem getRuleSets_spec (pf : ParseFn) (vm : LuaVM) (sets : List Str) :
    (getRuleSets pf vm sets).parsed.Nodup ∧
    ((getRuleSets pf vm sets).res ≠ Except.error GErr.fuel) ∧
    (∀ k, (getRuleSets pf vm sets).res = Except.error (GErr.notFound k) →
      Refd pf vm sets k ∧ lookupA k vm = none) ∧
    (∀ e, (getRuleSets pf vm sets).res = Except.error (GErr.parseErr e) →
      ∃ k bl, Refd pf vm sets k ∧ lookupA k vm = some bl ∧
        parseBlocks pf bl = Except.error e) ∧
    ((∃ e, (getRuleSets pf vm sets).res = Except.error e) ↔
      (∃ k, Refd pf vm sets k ∧
        (lookupA k vm = none ∨
          ∃ bl e, lookupA k vm = some bl ∧
            parseBlocks pf bl = Except.error e))) ∧
    ((getRuleSets pfCyc vmCyc [cs "a"]).res =
        Except.ok [(cs "b", []), (cs "a", [])] ∧
      (getRuleSets pfCyc vmCyc [cs "a"]).parsed = [cs "a", cs "b"]) := by
  obtain ⟨f1, f2, f3, f4⟩ :=
    gRSGo_fuel pf vm (missing vm [] + 1) sets [] (Nat.le_refl _)
  refine ⟨(gRSGo_inv pf vm (missing vm [] + 1) sets []).1, f1, f2, f3, ?_,
    by constructor <;> rfl⟩
  constructor
  · rintro ⟨e, he⟩
    cases e with
    | fuel => exact absurd he f1
    | notFound k => exact ⟨k, (f2 k he).1, Or.inl (f2 k he).2⟩
    | parseErr e2 =>
      obtain ⟨k, bl, h1, h2, h3⟩ := f3 e2 he
      exact ⟨k, h1, Or.inr ⟨bl, e2, h2, h3⟩⟩
  · rintro ⟨k, hrefd, hbad⟩
    cases hres : (getRuleSets pf vm sets).res with
    | error e => exact ⟨e, rfl⟩
    | ok m2 =>
      exfalso
      obtain ⟨c1, c2⟩ := f4 m2 hres
      have hclosure : ∀ j, Refd pf vm sets j → keyMem j m2 = true := by
        intro j hj
        induction hj with
        | base hjm => exact c1 _ hjm
        | step hjd hlk hpb hjr ih =>
          obtain ⟨bl2, pr2, hbl1, hbl2, hbl3⟩ := c2 _ ih rfl
          rw [hlk] at hbl1
          injection hbl1 with hbl4
          subst hbl4
          rw [hpb] at hbl2
          injection hbl2 with hbl5
          subst hbl5
          exact hbl3 _ hjr
      obtain ⟨bl, prx, hbl, hpbx, _⟩ := c2 k (hclosure k hrefd) rfl
      rcases hbad with hnone | ⟨bl2, e, hsome, hperr⟩
      · rw [hnone] at hbl
        cases hbl
      · rw [hsome] at hbl
        injection hbl with hbl6
        subst hbl6
        rw [hpbx] at hperr
        cases hperr

/-- Witness for `getRuleSets_spec`: on a rule set referencing the
absent name `b`, the error characterization yields a missing or
unparsable transitively referenced name. -/
theorem getRuleSets_spec_witness :
    ∃ k, Refd pfCyc vmMissing [cs "a"] k ∧
      (lookupA k vmMissing = none ∨
        ∃ bl e, lookupA k vmMissing = some bl ∧
          parseBlocks pfCyc bl = Except.error e) :=
  (getRuleSets_spec pfCyc vmMissing [cs "a"]).2.2.2.2.1.mp
    ⟨GErr.notFound (cs "b"), rfl⟩

/-! ### Lemmas about `makeAssigns` -/

theorem cutEq_none_iff (a : Str) : cutEq a = none ↔ '=' ∉ a := by
  induction a with
  | nil => simp [cutEq]
  | cons c r ih =>
    rw [cutEq]
    by_cases hc : c = '='
    · subst hc
      simp
    · rw [if_neg hc]
      simp only [Option.map_eq_none', List.mem_cons]
      rw [ih]
      constructor
      · intro h hor
        rcases hor with h2 | h2
        · exact hc h2.symm
        · exact h h2
      · intro h h2
        exact h (Or.inr h2)

theorem cutEq_some_iff (a b af : Str) :
    cutEq a = some (b, af) ↔ (a = b ++ '=' :: af ∧ '=' ∉ b) := by
  induction a generalizing b with
  | nil =>
    simp only [cutEq]
    constructor
    · intro h
      cases h
    · rintro ⟨h, _⟩
      exact absurd h (by simp)
  | cons c r ih =>
    rw [cutEq]
    by_cases hc : c = '='
    · subst hc
      rw [if_pos rfl]
      constructor
      · intro h
        injection h with h2
        injection h2 with h3 h4
        subst h3
        subst h4
        exact ⟨rfl, by simp⟩
      · rintro ⟨h1, h2⟩
        cases b with
        | nil =>
          simp only [List.nil_append] at h1
          injection h1 with _ h3
          rw [h3]
        | cons cb rb =>
          rw [List.cons_append] at h1
          injection h1 with h3 _
          exact absurd (by rw [← h3]; exact List.mem_cons_self _ _) h2
    · rw [if_neg hc]
      constructor
      · intro h
        rcases Option.map_eq_some'.mp h with ⟨p, hp1, hp2⟩
        have h3 : c :: p.1 = b := congrArg Prod.fst hp2
        have h4 : p.2 = af := congrArg Prod.snd hp2
        obtain ⟨hr1, hr2⟩ := (ih p.1).mp (by rw [← h4]; exact hp1)
        refine ⟨?_, ?_⟩
        · rw [← h3, List.cons_append, hr1]
        · rw [← h3]
          intro hm
          rcases List.mem_cons.mp hm with h5 | h5
          · exact hc h5.symm
          · exact hr2 h5
      · rintro ⟨h1, h2⟩
        cases b with
        | nil =>
          simp only [List.nil_append] at h1
          injection h1 with h3 _
          exact absurd h3 hc
        | cons cb rb =>
          rw [List.cons_append] at h1
          injection h1 with h3 h4
          subst h3
          have hrb : '=' ∉ rb := fun hm => h2 (List.mem_cons_of_mem _ hm)
          rw [(ih rb).mpr ⟨h4, hrb⟩]
          rfl

theorem makeAssigns_split (args : List Str) :
    (makeAssigns args).1 =
      args.filterMap (fun a => (cutEq a).map (fun p => Assign.mk p.1 p.2)) ∧
    (makeAssigns args).2 = args.filter (fun a => (cutEq a).isNone) := by
  induction args with
  | nil => exact ⟨rfl, rfl⟩
  | cons a rest ih =>
    cases hc : cutEq a with
    | none =>
      constructor
      · simp [makeAssigns, hc, List.filterMap_cons, ih.1]
      · simp [makeAssigns, hc, List.filter_cons, ih.2]
    | some p =>
      constructor
      · simp [makeAssigns, hc, List.filterMap_cons, ih.1]
      · simp [makeAssigns, hc, List.filter_cons, ih.2]

/-- C6: `makeAssigns` partitions the positional arguments: each string
containing `=` becomes a `NAME=VALUE` assignment whose name is the text
before the first `=` and whose value is the text after it, each string
without `=` is kept as a target name, and the relative order within
each group is preserved (the two outputs are a `filterMap` and a
`filter` of the argument list). -/
theorem makeAssigns_partition (args : List Str) :
    ((makeAssigns args).1 =
      args.filterMap (fun a => (cutEq a).map (fun p => Assign.mk p.1 p.2))) ∧
    ((makeAssigns args).2 = args.filter (fun a => (cutEq a).isNone)) ∧
    (∀ a b af, cutEq a = some (b, af) ↔ (a = b ++ '=' :: af ∧ '=' ∉ b)) ∧
    (∀ a, cutEq a = none ↔ '=' ∉ a) := by
  exact ⟨(makeAssigns_split args).1, (makeAssigns_split args).2,
    cutEq_some_iff, cutEq_none_iff⟩

/-- Witness for `makeAssigns_partition` at a concrete argument list. -/
theorem makeAssigns_partition_witness :
    makeAssigns [cs "cc=clang", cs "hello", cs "V=1", cs "all"] =
      ([⟨cs "cc", cs "clang"⟩, ⟨cs "V", cs "1"⟩], [cs "hello", cs "all"]) ∧
    (cs "cc=clang" = cs "cc" ++ '=' :: cs "clang" ∧ '=' ∉ cs "cc") := by
  constructor
  · have h := makeAssigns_partition [cs "cc=clang", cs "hello", cs "V=1", cs "all"]
    rw [Prod.ext_iff, h.1, h.2.1]
    constructor <;> decide
  · exact (makeAssigns_partition []).2.2.1 (cs "cc=clang") (cs "cc")
      (cs "clang") |>.mp (by decide)

/-! ### Lemmas about `Run` -/

/-- An event list without executor-stage events. -/
def NoExecEv (l : List RunEv) : Prop :=
  RunEv.exec ∉ l ∧ RunEv.saveDb ∉ l ∧ RunEv.clean ∉ l ∧
  (∀ p o, RunEv.mkExecutor p o ∉ l)

/-- An event list without executor-stage or database events. -/
def NoDbEv (l : List RunEv) : Prop :=
  NoExecEv l ∧ (∀ loc, RunEv.openDatabase loc ∉ l)

/-- `Run` exited before the database stage: no database was opened, no
executor ran, no save happened, and the disk is untouched. -/
def EarlyOut (env : RunEnv) (out : RunOut) : Prop :=
  NoDbEv out.events ∧ out.disk = env.disk

/-- `Run` reached the executor stage: its output is that of
`runExecSave` on an event prefix without executor-stage events. -/
def TailOut (env : RunEnv) (flags : Flags) (out : RunOut) : Prop :=
  ∃ ev kf targets rs size loc,
    out = runExecSave env flags ev kf targets rs size loc ∧ NoExecEv ev

theorem runExecSave_clean (env : RunEnv) (flags : Flags) (ev : List RunEv)
    (kf : Str) (targets : List Str) (rs : RS) (size : Nat) (loc : DbLoc)
    (hc : flags.clean = true) :
    runExecSave env flags ev kf targets rs size loc =
      ⟨none, (ev ++ [.mkExecutor (mkPrinter flags.style) (mkOptions flags)])
        ++ [.clean], env.disk, some kf, targets, rs, some size⟩ := by
  simp only [runExecSave, hc, if_true]

theorem runExecSave_exec (env : RunEnv) (flags : Flags) (ev : List RunEv)
    (kf : Str) (targets : List Str) (rs : RS) (size : Nat) (loc : DbLoc)
    (hc : flags.clean = false) :
    (runExecSave env flags ev kf targets rs size loc).events =
      ((ev ++ [.mkExecutor (mkPrinter flags.style) (mkOptions flags)])
        ++ [RunEv.exec]) ++ [RunEv.saveDb] ∧
    (runExecSave env flags ev kf targets rs size loc).reqTargets = targets ∧
    (runExecSave env flags ev kf targets rs size loc).chosenFile = some kf ∧
    (runExecSave env flags ev kf targets rs size loc).result =
      (match env.saveRes with
       | some e => some (.saveErr e)
       | none =>
         match (env.execRes (mkOptions flags)).2 with
         | some e => some (.execErr e)
         | none =>
           if (env.execRes (mkOptions flags)).1 = true then none
           else some (.nothingToDo (joinSp targets))) ∧
    (runExecSave env flags ev kf targets rs size loc).disk =
      (match env.saveRes with
       | some _ => env.disk
       | none => updateDisk env.disk loc
           (execDbEffect env (mkOptions flags) (env.disk loc))) := by
  simp only [runExecSave, hc, Bool.false_eq_true, if_false]
  cases hs : env.saveRes with
  | some e => simp
  | none =>
    cases he : (env.execRes (mkOptions flags)).2 with
    | some e => simp
    | none =>
      by_cases hr : (env.execRes (mkOptions flags)).1 = true
      · simp [hr]
      · simp only [Bool.not_eq_true] at hr
        simp [hr]

theorem runDb_factor (env : RunEnv) (flags : Flags) (ev : List RunEv)
    (kf : Str) (targets : List Str) (rs : RS) (size : Nat)
    (hev : NoDbEv ev) :
    EarlyOut env (runDb env flags ev kf targets rs size) ∨
    TailOut env flags (runDb env flags ev kf targets rs size) := by
  unfold runDb
  obtain ⟨⟨h1, h2, h3, h4⟩, h5⟩ := hev
  split
  · refine Or.inr ⟨_, kf, targets, rs, size, _, rfl, ?_⟩
    refine ⟨by simp [h1], by simp [h2], by simp [h3], ?_⟩
    intro p o
    simp [h4 p o]
  · split
    · exact Or.inl ⟨⟨⟨h1, h2, h3, h4⟩, h5⟩, rfl⟩
    · refine Or.inr ⟨_, kf, targets, rs, size, _, rfl, ?_⟩
      refine ⟨by simp [h1], by simp [h2], by simp [h3], ?_⟩
      intro p o
      simp [h4 p o]

theorem runPostGraph_factor (env : RunEnv) (flags : Flags) (ev : List RunEv)
    (kf : Str) (targets : List Str) (rs : RS) (size : Nat)
    (hev : NoDbEv ev) :
    EarlyOut env (runPostGraph env flags ev kf targets rs size) ∨
    TailOut env flags (runPostGraph env flags ev kf targets rs size) := by
  obtain ⟨⟨h1, h2, h3, h4⟩, h5⟩ := hev
  have hstep : ∀ ev2 : List RunEv, NoDbEv ev2 →
      EarlyOut env (runExpand env flags ev2 kf targets rs size) ∨
      TailOut env flags (runExpand env flags ev2 kf targets rs size) := by
    intro ev2 hg
    obtain ⟨⟨g1, g2, g3, g4⟩, g5⟩ := hg
    unfold runExpand
    split
    · exact Or.inl ⟨⟨⟨g1, g2, g3, g4⟩, g5⟩, rfl⟩
    · split
      · split
        · exact Or.inl ⟨⟨⟨by simp [g1], by simp [g2], by simp [g3],
            fun p o => by simp [g4 p o]⟩, fun loc => by simp [g5 loc]⟩, rfl⟩
        · apply runDb_factor
          exact ⟨⟨by simp [g1], by simp [g2], by simp [g3],
            fun p o => by simp [g4 p o]⟩, fun loc => by simp [g5 loc]⟩
      · apply runDb_factor
        exact ⟨⟨by simp [g1], by simp [g2], by simp [g3],
          fun p o => by simp [g4 p o]⟩, fun loc => by simp [g5 loc]⟩
  unfold runPostGraph
  split
  · exact hstep ev ⟨⟨h1, h2, h3, h4⟩, h5⟩
  · split
    · exact Or.inl ⟨⟨⟨by simp [h1], by simp [h2], by simp [h3],
        fun p o => by simp [h4 p o]⟩, fun loc => by simp [h5 loc]⟩, rfl⟩
    · apply hstep
      refine ⟨⟨by simp [h1], by simp [h2], by simp [h3],
        fun p o => by simp [h4 p o]⟩, fun loc => by simp [h5 loc]⟩

/-- Events produced by the stages after graph construction. -/
def isPostEv : RunEv → Bool
  | .visualize => true
  | .expandRecipes => true
  | .writeCompileCommands => true
  | .openDatabase _ => true
  | .mkExecutor _ _ => true
  | .clean => true
  | .exec => true
  | .saveDb => true
  | _ => false

theorem mem_chdirEvents {flags : Flags} {e : RunEv}
    (h : e ∈ chdirEvents flags) : ∃ d, e = RunEv.chdir d := by
  unfold chdirEvents at h
  split at h
  · cases h
  · rw [List.mem_singleton] at h
    exact ⟨flags.runDir, h⟩

theorem mem_evEval {env : RunEnv} {args : List Str} {flags : Flags} {kf : Str}
    {e : RunEv} (h : e ∈ evEval env args flags kf) :
    (∃ d, e = RunEv.chdir d) ∨ e = RunEv.openFile kf ∨
    (∃ n v, e = RunEv.cliVar n v) ∨ (∃ n v, e = RunEv.envVar n v) ∨
    e = RunEv.evalFile := by
  unfold evEval evVars evOpen at h
  simp only [List.mem_append, List.mem_singleton, List.mem_map] at h
  rcases h with ((((h | h) | h) | h) | h)
  · exact Or.inl (mem_chdirEvents h)
  · exact Or.inr (Or.inl h)
  · obtain ⟨a, _, ha⟩ := h
    exact Or.inr (Or.inr (Or.inl ⟨a.name, a.value, ha.symm⟩))
  · obtain ⟨a, _, ha⟩ := h
    exact Or.inr (Or.inr (Or.inr (Or.inl ⟨a.name, a.value, ha.symm⟩)))
  · exact Or.inr (Or.inr (Or.inr (Or.inr h)))

theorem mem_evVars {env : RunEnv} {args : List Str} {flags : Flags} {kf : Str}
    {e : RunEv} (h : e ∈ evVars env args flags kf) :
    (∃ d, e = RunEv.chdir d) ∨ e = RunEv.openFile kf ∨
    (∃ n v, e = RunEv.cliVar n v) ∨ (∃ n v, e = RunEv.envVar n v) ∨
    e = RunEv.evalFile :=
  mem_evEval (by unfold evEval; exact List.mem_append.mpr (Or.inl h))

theorem mem_evGraph {env : RunEnv} {args : List Str} {flags : Flags}
    {kf : Str} {r : DirectRule} {e : RunEv}
    (h : e ∈ evGraph env args flags kf r) :
    e ∈ evEval env args flags kf ∨ e = RunEv.addRule r ∨
    e = RunEv.buildGraph := by
  unfold evGraph at h
  simp only [List.mem_append, List.mem_singleton] at h
  tauto

theorem postEv_not_evEval {env : RunEnv} {args : List Str} {flags : Flags}
    {kf : Str} {e : RunEv} (hp : isPostEv e = true) :
    e ∉ evEval env args flags kf := by
  intro h
  rcases mem_evEval h with ⟨d, rfl⟩ | rfl | ⟨n, v, rfl⟩ | ⟨n, v, rfl⟩ | rfl <;>
    simp [isPostEv] at hp

theorem postEv_not_evVars {env : RunEnv} {args : List Str} {flags : Flags}
    {kf : Str} {e : RunEv} (hp : isPostEv e = true) :
    e ∉ evVars env args flags kf := by
  intro h
  rcases mem_evVars h with ⟨d, rfl⟩ | rfl | ⟨n, v, rfl⟩ | ⟨n, v, rfl⟩ | rfl <;>
    simp [isPostEv] at hp

theorem postEv_not_evGraph {env : RunEnv} {args : List Str} {flags : Flags}
    {kf : Str} {r : DirectRule} {e : RunEv} (hp : isPostEv e = true) :
    e ∉ evGraph env args flags kf r := by
  intro h
  rcases mem_evGraph h with h2 | rfl | rfl
  · exact postEv_not_evEval hp h2
  · simp [isPostEv] at hp
  · simp [isPostEv] at hp

theorem postEv_not_chdirEvents {flags : Flags} {e : RunEv}
    (hp : isPostEv e = true) : e ∉ chdirEvents flags := by
  intro h
  obtain ⟨d, rfl⟩ := mem_chdirEvents h
  simp [isPostEv] at hp

theorem NoDbEv_chdirEvents (flags : Flags) : NoDbEv (chdirEvents flags) :=
  ⟨⟨postEv_not_chdirEvents rfl, postEv_not_chdirEvents rfl,
    postEv_not_chdirEvents rfl, fun _ _ => postEv_not_chdirEvents rfl⟩,
    fun _ => postEv_not_chdirEvents rfl⟩

theorem NoDbEv_evVars (env : RunEnv) (args : List Str) (flags : Flags)
    (kf : Str) : NoDbEv (evVars env args flags kf) :=
  ⟨⟨postEv_not_evVars rfl, postEv_not_evVars rfl, postEv_not_evVars rfl,
    fun _ _ => postEv_not_evVars rfl⟩, fun _ => postEv_not_evVars rfl⟩

theorem NoDbEv_evEval (env : RunEnv) (args : List Str) (flags : Flags)
    (kf : Str) : NoDbEv (evEval env args flags kf) :=
  ⟨⟨postEv_not_evEval rfl, postEv_not_evEval rfl, postEv_not_evEval rfl,
    fun _ _ => postEv_not_evEval rfl⟩, fun _ => postEv_not_evEval rfl⟩

theorem NoDbEv_evGraph (env : RunEnv) (args : List Str) (flags : Flags)
    (kf : Str) (r : DirectRule) : NoDbEv (evGraph env args flags kf r) :=
  ⟨⟨postEv_not_evGraph rfl, postEv_not_evGraph rfl, postEv_not_evGraph rfl,
    fun _ _ => postEv_not_evGraph rfl⟩, fun _ => postEv_not_evGraph rfl⟩

/-- `Run` either exits before the database stage or factors through
`runExecSave`. -/
theorem Run_factor (env : RunEnv) (args : List Str) (flags : Flags) :
    EarlyOut env (Run env args flags) ∨ TailOut env flags (Run env args flags) := by
  simp only [Run]
  repeat' split
  all_goals
    first
    | exact Or.inl ⟨NoDbEv_chdirEvents flags, rfl⟩
    | exact Or.inl ⟨NoDbEv_evVars env args flags _, rfl⟩
    | exact Or.inl ⟨NoDbEv_evEval env args flags _, rfl⟩
    | exact Or.inl ⟨NoDbEv_evGraph env args flags _ _, rfl⟩
    | exact runPostGraph_factor env flags _ _ _ _ _
        (NoDbEv_evGraph env args flags _ _)

theorem updateDisk_self (d : DbLoc → Db) (loc : DbLoc) :
    ∀ l, updateDisk d loc (d loc) l = d l := by
  intro l
  unfold updateDisk
  split
  · rename_i h
    rw [h]
  · rfl

/-- C1: whenever `Run` reaches execution of the build (the executor is
invoked), `db.Save()` is called after the executor returns, regardless
of whether the executor reported an error; and when the save succeeds,
the executor's error is what `Run` returns to the caller. -/
theorem Run_saves_after_exec (env : RunEnv) (args : List Str) (flags : Flags) :
    RunEv.exec ∈ (Run env args flags).events →
      (∃ l1 l2, (Run env args flags).events = l1 ++ RunEv.exec :: l2 ∧
        RunEv.saveDb ∈ l2) ∧
      (env.saveRes = none → ∀ e, (env.execRes (mkOptions flags)).2 = some e →
        (Run env args flags).result = some (RunErr.execErr e)) := by
  intro hexec
  rcases Run_factor env args flags with hearly | htail
  · exact absurd hexec hearly.1.1.1
  · obtain ⟨ev, kf, targets, rs, size, loc, heq, hne⟩ := htail
    rw [heq] at hexec ⊢
    by_cases hc : flags.clean = true
    · rw [runExecSave_clean env flags ev kf targets rs size loc hc] at hexec
      exfalso
      simp at hexec
      exact hne.1 hexec
    · have hc2 : flags.clean = false := by
        cases hcv : flags.clean
        · rfl
        · exact absurd hcv hc
      obtain ⟨he, _, _, hres, _⟩ :=
        runExecSave_exec env flags ev kf targets rs size loc hc2
      refine ⟨⟨ev ++ [.mkExecutor (mkPrinter flags.style) (mkOptions flags)],
        [RunEv.saveDb], ?_, by simp⟩, ?_⟩
      · rw [he]
        simp
      · intro hsave e hee
        rw [hres]
        simp [hsave, hee]

/-- C2: when `Run` reaches execution and the save succeeds, it returns
`ErrNothingToDo` wrapped with the space-joined requested targets exactly
when the executor reported no error and no node rebuilt; when a node
rebuilt and there was no error, `Run` returns nil. -/
theorem Run_nothingToDo_iff (env : RunEnv) (args : List Str) (flags : Flags) :
    RunEv.exec ∈ (Run env args flags).events → env.saveRes = none →
      (((env.execRes (mkOptions flags)).2 = none ∧
          (env.execRes (mkOptions flags)).1 = false) ↔
        (Run env args flags).result =
          some (RunErr.nothingToDo (joinSp (Run env args flags).reqTargets))) ∧
      ((env.execRes (mkOptions flags)).2 = none →
        (env.execRes (mkOptions flags)).1 = true →
        (Run env args flags).result = none) := by
  intro hexec hsave
  rcases Run_factor env args flags with hearly | htail
  · exact absurd hexec hearly.1.1.1
  · obtain ⟨ev, kf, targets, rs, size, loc, heq, hne⟩ := htail
    rw [heq] at hexec ⊢
    by_cases hc : flags.clean = true
    · rw [runExecSave_clean env flags ev kf targets rs size loc hc] at hexec
      exfalso
      simp at hexec
      exact hne.1 hexec
    · have hc2 : flags.clean = false := by
        cases hcv : flags.clean
        · rfl
        · exact absurd hcv hc
      obtain ⟨_, htg, _, hres, _⟩ :=
        runExecSave_exec env flags ev kf targets rs size loc hc2
      rw [htg, hres, hsave]
      constructor
      · cases hee : (env.execRes (mkOptions flags)).2 with
        | some e =>
          simp only [hee]
          constructor
          · rintro ⟨h1, _⟩
            cases h1
          · intro h1
            simp at h1
        | none =>
          simp only [hee]
          cases her : (env.execRes (mkOptions flags)).1 with
          | false => simp
          | true => simp
      · intro hee her
        simp [hee, her]

/-- C4: with the dry-run flag set, the executor is configured with
`NoExec`, and the on-disk database contents after the invocation equal
what they were before it. -/
theorem Run_dryRun_frame (env : RunEnv) (args : List Str) (flags : Flags)
    (hdry : flags.dryRun = true) :
    (∀ loc, (Run env args flags).disk loc = env.disk loc) ∧
    (∀ p o, RunEv.mkExecutor p o ∈ (Run env args flags).events →
      o.noExec = true) := by
  rcases Run_factor env args flags with hearly | htail
  · refine ⟨fun loc => by rw [hearly.2], fun p o hmem =>
      absurd hmem (hearly.1.1.2.2.2 p o)⟩
  · obtain ⟨ev, kf, targets, rs, size, loc, heq, hne⟩ := htail
    rw [heq]
    by_cases hc : flags.clean = true
    · rw [runExecSave_clean env flags ev kf targets rs size loc hc]
      refine ⟨fun l => rfl, ?_⟩
      intro p o hmem
      simp at hmem
      rcases hmem with hmem | ⟨_, ho⟩
      · exact absurd hmem (hne.2.2.2 p o)
      · rw [ho, mkOptions]
        exact hdry
    · have hc2 : flags.clean = false := by
        cases hcv : flags.clean
        · rfl
        · exact absurd hcv hc
      obtain ⟨he, _, _, _, hdisk⟩ :=
        runExecSave_exec env flags ev kf targets rs size loc hc2
      constructor
      · intro l
        rw [hdisk]
        cases hs : env.saveRes with
        | some e => simp
        | none =>
          simp only
          have hnoex : (mkOptions flags).noExec = true := hdry
          rw [execDbEffect, if_pos hnoex]
          exact updateDisk_self env.disk loc l
      · intro p o hmem
        rw [he] at hmem
        simp at hmem
        rcases hmem with hmem | ⟨_, ho⟩
        · exact absurd hmem (hne.2.2.2 p o)
        · rw [ho, mkOptions]
          exact hdry

/-! ### Concrete environments for witnesses and counterexamples -/

/-- Flags of a plain `knit` invocation (one core, no dry-run, no clean,
local cache). -/
def demoFlags : Flags :=
  ⟨cs "knitfile", 1, [], false, [], false, false, false, [], [], true, false, []⟩

/-- A well-behaved environment: the rule file opens, evaluation yields
the rule set `r` with no references, the main target is `m`, the graph
has two nodes, and the executor reports nothing rebuilt. -/
def demoEnv : RunEnv where
  fileExists := fun _ => true
  defaultBuildFile := none
  openRes := fun _ => none
  environ := []
  evalRes := .ok (cs "rsval")
  toRuleSet := fun _ => some (cs "r")
  lvalType := fun _ => cs "ruleset"
  vm := [(cs "r", [])]
  parseFn := ⟨fun _ _ _ => .ok ([], [])⟩
  mainTarget := fun _ => cs "m"
  graphRes := fun _ _ _ => .ok 2
  visRes := none
  expandRes := none
  commandsRes := none
  getwd := .ok (cs "/w")
  xdgCacheKnit := cs "/xdg"
  disk := fun _ => []
  execRes := fun _ => (false, none)
  execDb := fun _ db => db
  saveRes := none

/-- As `demoEnv`, but the executor rebuilt something and reported a
recipe error. -/
def demoEnvFail : RunEnv :=
  { demoEnv with execRes := fun _ => (true, some (cs "boom")) }

/-- Witness for `Run_saves_after_exec` on `demoEnvFail`: the save
happens after execution and the recipe error is returned. -/
theorem Run_saves_after_exec_witness :
    (∃ l1 l2, (Run demoEnvFail [] demoFlags).events =
        l1 ++ RunEv.exec :: l2 ∧ RunEv.saveDb ∈ l2) ∧
    (Run demoEnvFail [] demoFlags).result =
      some (RunErr.execErr (cs "boom")) := by
  have h := Run_saves_after_exec demoEnvFail [] demoFlags (by decide)
  exact ⟨h.1, h.2 rfl (cs "boom") rfl⟩

/-- Witness for `Run_nothingToDo_iff` on `demoEnv`: nothing rebuilt and
no error yields the wrapped `ErrNothingToDo`. -/
theorem Run_nothingToDo_iff_witness :
    (Run demoEnv [] demoFlags).result =
      some (RunErr.nothingToDo (joinSp (Run demoEnv [] demoFlags).reqTargets)) := by
  have h := Run_nothingToDo_iff demoEnv [] demoFlags (by decide) rfl
  exact h.1.mp ⟨rfl, rfl⟩

/-- Dry-run variant of the demonstration flags. -/
def demoFlagsDry : Flags := { demoFlags with dryRun := true }

/-! ### Event ordering and provenance -/

/-- `a` occurs in `l` strictly before some occurrence of `b`. -/
def Precedes {α : Type} (a b : α) (l : List α) : Prop :=
  ∃ l1 l2, l = l1 ++ a :: l2 ∧ b ∈ l2

theorem Precedes_extend {α : Type} {a b : α} {l : List α}
    (h : Precedes a b l) (l2 : List α) : Precedes a b (l ++ l2) := by
  obtain ⟨x, y, hxy, hb⟩ := h
  exact ⟨x, y ++ l2, by rw [hxy]; simp, by simp [hb]⟩

theorem Precedes_pair {α : Type} (a b : α) (l : List α) :
    Precedes a b ((l ++ [a]) ++ [b]) :=
  ⟨l, [b], by simp, by simp⟩

theorem runExecSave_suffix (env : RunEnv) (flags : Flags) (ev : List RunEv)
    (kf : Str) (targets : List Str) (rs : RS) (size : Nat) (loc : DbLoc) :
    ∃ suf, (runExecSave env flags ev kf targets rs size loc).events =
      ev ++ suf ∧ ∀ e ∈ suf, isPostEv e = true := by
  by_cases hc : flags.clean = true
  · rw [runExecSave_clean env flags ev kf targets rs size loc hc]
    refine ⟨[.mkExecutor (mkPrinter flags.style) (mkOptions flags), .clean],
      by simp, ?_⟩
    intro e he
    rcases List.mem_cons.mp he with rfl | he2
    · rfl
    · rw [List.mem_singleton] at he2
      subst he2
      rfl
  · have hc2 : flags.clean = false := by
      cases hcv : flags.clean
      · rfl
      · exact absurd hcv hc
    obtain ⟨he, _⟩ := runExecSave_exec env flags ev kf targets rs size loc hc2
    refine ⟨[.mkExecutor (mkPrinter flags.style) (mkOptions flags),
      RunEv.exec, RunEv.saveDb], by rw [he]; simp, ?_⟩
    intro e hee
    rcases List.mem_cons.mp hee with rfl | hee2
    · rfl
    · rcases List.mem_cons.mp hee2 with rfl | hee3
      · rfl
      · rw [List.mem_singleton] at hee3
        subst hee3
        rfl

theorem runDb_suffix (env : RunEnv) (flags : Flags) (ev : List RunEv)
    (kf : Str) (targets : List Str) (rs : RS) (size : Nat) :
    ∃ suf, (runDb env flags ev kf targets rs size).events = ev ++ suf ∧
      ∀ e ∈ suf, isPostEv e = true := by
  unfold runDb
  split
  · obtain ⟨suf, hs, hp⟩ := runExecSave_suffix env flags
      (ev ++ [RunEv.openDatabase (DbLoc.workdir (cs ".knit"))]) kf targets rs
      size (DbLoc.workdir (cs ".knit"))
    refine ⟨RunEv.openDatabase (DbLoc.workdir (cs ".knit")) :: suf, ?_, ?_⟩
    · rw [hs]
      simp
    · intro e he
      rcases List.mem_cons.mp he with rfl | he2
      · rfl
      · exact hp e he2
  · split
    · exact ⟨[], by simp, by simp⟩
    · rename_i wd heqw
      obtain ⟨suf, hs, hp⟩ := runExecSave_suffix env flags
        (ev ++ [RunEv.openDatabase (DbLoc.cache
          (if flags.cacheDir = cs "$cache" then env.xdgCacheKnit
           else flags.cacheDir) wd)]) kf targets rs size
        (DbLoc.cache
          (if flags.cacheDir = cs "$cache" then env.xdgCacheKnit
           else flags.cacheDir) wd)
      refine ⟨RunEv.openDatabase (DbLoc.cache
          (if flags.cacheDir = cs "$cache" then env.xdgCacheKnit
           else flags.cacheDir) wd) :: suf, ?_, ?_⟩
      · show (runExecSave env flags (ev ++ [RunEv.openDatabase (DbLoc.cache
          (if flags.cacheDir = cs "$cache" then env.xdgCacheKnit
           else flags.cacheDir) wd)]) kf targets rs size
          (DbLoc.cache
            (if flags.cacheDir = cs "$cache" then env.xdgCacheKnit
             else flags.cacheDir) wd)).events = _
        rw [hs]
        simp
      · intro e he
        rcases List.mem_cons.mp he with rfl | he2
        · rfl
        · exact hp e he2

theorem runExpand_suffix (env : RunEnv) (flags : Flags) (ev : List RunEv)
    (kf : Str) (targets : List Str) (rs : RS) (size : Nat) :
    ∃ suf, (runExpand env flags ev kf targets rs size).events = ev ++ suf ∧
      ∀ e ∈ suf, isPostEv e = true := by
  unfold runExpand
  split
  · exact ⟨[], by simp, by simp⟩
  · split
    · split
      · refine ⟨[RunEv.expandRecipes, RunEv.writeCompileCommands], by simp, ?_⟩
        intro e he
        rcases List.mem_cons.mp he with rfl | he2
        · rfl
        · rw [List.mem_singleton] at he2
          subst he2
          rfl
      · obtain ⟨suf, hs, hp⟩ := runDb_suffix env flags
          ((ev ++ [RunEv.expandRecipes]) ++ [RunEv.writeCompileCommands]) kf
          targets rs size
        refine ⟨(RunEv.expandRecipes :: [RunEv.writeCompileCommands]) ++ suf,
          ?_, ?_⟩
        · rw [hs]
          simp
        · intro e he
          rcases List.mem_append.mp he with he2 | he2
          · rcases List.mem_cons.mp he2 with rfl | he3
            · rfl
            · rw [List.mem_singleton] at he3
              subst he3
              rfl
          · exact hp e he2
    · obtain ⟨suf, hs, hp⟩ := runDb_suffix env flags
        (ev ++ [RunEv.expandRecipes]) kf targets rs size
      refine ⟨RunEv.expandRecipes :: suf, ?_, ?_⟩
      · rw [hs]
        simp
      · intro e he
        rcases List.mem_cons.mp he with rfl | he2
        · rfl
        · exact hp e he2

theorem runPostGraph_suffix (env : RunEnv) (flags : Flags) (ev : List RunEv)
    (kf : Str) (targets : List Str) (rs : RS) (size : Nat) :
    ∃ suf, (runPostGraph env flags ev kf targets rs size).events = ev ++ suf ∧
      ∀ e ∈ suf, isPostEv e = true := by
  unfold runPostGraph
  split
  · exact runExpand_suffix env flags ev kf targets rs size
  · split
    · refine ⟨[RunEv.visualize], by simp, ?_⟩
      intro e he
      rw [List.mem_singleton] at he
      subst he
      rfl
    · obtain ⟨suf, hs, hp⟩ := runExpand_suffix env flags
        (ev ++ [RunEv.visualize]) kf targets rs size
      refine ⟨RunEv.visualize :: suf, ?_, ?_⟩
      · rw [hs]
        simp
      · intro e he
        rcases List.mem_cons.mp he with rfl | he2
        · rfl
        · exact hp e he2

theorem addRule_not_chdir {flags : Flags} {r : DirectRule} :
    RunEv.addRule r ∉ chdirEvents flags := by
  intro h
  obtain ⟨d, hd⟩ := mem_chdirEvents h
  cases hd

theorem buildGraph_not_chdir {flags : Flags} :
    RunEv.buildGraph ∉ chdirEvents flags := by
  intro h
  obtain ⟨d, hd⟩ := mem_chdirEvents h
  cases hd

theorem addRule_not_evVars {env : RunEnv} {args : List Str} {flags : Flags}
    {kf : Str} {r : DirectRule} : RunEv.addRule r ∉ evVars env args flags kf := by
  intro h
  rcases mem_evVars h with ⟨d, hd⟩ | hd | ⟨n, v, hd⟩ | ⟨n, v, hd⟩ | hd <;> cases hd

theorem buildGraph_not_evVars {env : RunEnv} {args : List Str} {flags : Flags}
    {kf : Str} : RunEv.buildGraph ∉ evVars env args flags kf := by
  intro h
  rcases mem_evVars h with ⟨d, hd⟩ | hd | ⟨n, v, hd⟩ | ⟨n, v, hd⟩ | hd <;> cases hd

theorem addRule_not_evEval {env : RunEnv} {args : List Str} {flags : Flags}
    {kf : Str} {r : DirectRule} : RunEv.addRule r ∉ evEval env args flags kf := by
  intro h
  rcases mem_evEval h with ⟨d, hd⟩ | hd | ⟨n, v, hd⟩ | ⟨n, v, hd⟩ | hd <;> cases hd

theorem buildGraph_not_evEval {env : RunEnv} {args : List Str} {flags : Flags}
    {kf : Str} : RunEv.buildGraph ∉ evEval env args flags kf := by
  intro h
  rcases mem_evEval h with ⟨d, hd⟩ | hd | ⟨n, v, hd⟩ | ⟨n, v, hd⟩ | hd <;> cases hd

theorem evGraph_addRule_eq {env : RunEnv} {args : List Str} {flags : Flags}
    {kf : Str} {r r2 : DirectRule}
    (h : RunEv.addRule r2 ∈ evGraph env args flags kf r) : r2 = r := by
  rcases mem_evGraph h with h2 | h2 | h2
  · exact absurd h2 addRule_not_evEval
  · injection h2
  · cases h2

set_option maxHeartbeats 1600000 in
/-- The ghost fields and the impossible results of the post-graph
stages. -/
theorem runPostGraph_fields (env : RunEnv) (flags : Flags) (ev : List RunEv)
    (kf : Str) (targets : List Str) (rs : RS) (size : Nat) :
    (runPostGraph env flags ev kf targets rs size).reqTargets = targets ∧
    (runPostGraph env flags ev kf targets rs size).chosenFile = some kf ∧
    (runPostGraph env flags ev kf targets rs size).rootRS = rs ∧
    (runPostGraph env flags ev kf targets rs size).graphSize = some size ∧
    (∀ e2, (runPostGraph env flags ev kf targets rs size).result ≠
      some (RunErr.graphErr e2)) ∧
    ((runPostGraph env flags ev kf targets rs size).result ≠
      some RunErr.noTargets) ∧
    (∀ ts, (runPostGraph env flags ev kf targets rs size).result ≠
      some (RunErr.targetNotFound ts)) := by
  simp only [runPostGraph, runExpand, runDb, runExecSave]
  refine ⟨?_, ?_, ?_, ?_, ?_, ?_, ?_⟩ <;> (repeat' split) <;> simp

/-- The heart of C3 at the post-graph stage: with the synthetic rule in
the event prefix, every `addRule` event carries exactly that rule and it
precedes the graph-construction event. -/
theorem runPostGraph_c3 (env : RunEnv) (args : List Str) (flags : Flags)
    (kf : Str) (targets : List Str) (rs : RS) (size : Nat) :
    (∀ r2, RunEv.addRule r2 ∈ (runPostGraph env flags
        (evGraph env args flags kf
          ⟨[cs ":all"], targets, [],
            { virtual := true, noMeta := true, rebuild := true }⟩)
        kf targets rs size).events →
      r2 = ⟨[cs ":all"],
        (runPostGraph env flags
          (evGraph env args flags kf
            ⟨[cs ":all"], targets, [],
              { virtual := true, noMeta := true, rebuild := true }⟩)
          kf targets rs size).reqTargets, [],
        { virtual := true, noMeta := true, rebuild := true }⟩) ∧
    Precedes
      (RunEv.addRule ⟨[cs ":all"],
        (runPostGraph env flags
          (evGraph env args flags kf
            ⟨[cs ":all"], targets, [],
              { virtual := true, noMeta := true, rebuild := true }⟩)
          kf targets rs size).reqTargets, [],
        { virtual := true, noMeta := true, rebuild := true }⟩)
      RunEv.buildGraph
      (runPostGraph env flags
        (evGraph env args flags kf
          ⟨[cs ":all"], targets, [],
            { virtual := true, noMeta := true, rebuild := true }⟩)
        kf targets rs size).events := by
  rw [(runPostGraph_fields env flags _ kf targets rs size).1]
  obtain ⟨suf, hsuf, hpost⟩ := runPostGraph_suffix env flags
    (evGraph env args flags kf
      ⟨[cs ":all"], targets, [],
        { virtual := true, noMeta := true, rebuild := true }⟩)
    kf targets rs size
  constructor
  · intro r2 hmem
    rw [hsuf] at hmem
    rcases List.mem_append.mp hmem with h2 | h2
    · exact evGraph_addRule_eq h2
    · have h3 := hpost _ h2
      simp [isPostEv] at h3
  · rw [hsuf]
    refine Precedes_extend ?_ suf
    unfold evGraph
    exact Precedes_pair _ _ _

/-- Witness for `Run_dryRun_frame` on a dry-run invocation: the on-disk
database is untouched and the executor options carry `NoExec`. -/
theorem Run_dryRun_frame_witness :
    (Run demoEnv [] demoFlagsDry).disk (DbLoc.workdir (cs ".knit")) =
      demoEnv.disk (DbLoc.workdir (cs ".knit")) ∧
    (mkOptions demoFlagsDry).noExec = true := by
  have h := Run_dryRun_frame demoEnv [] demoFlagsDry rfl
  exact ⟨h.1 _, h.2 (mkPrinter demoFlagsDry.style) (mkOptions demoFlagsDry)
    (by decide)⟩

set_option maxHeartbeats 3200000 in
/-- C3: every rule `Run` adds to the root rule set is the synthetic
direct rule with sole target `:all`, the requested targets as
prerequisites, an empty recipe, and exactly the attributes `virtual`,
`nometa` and `rebuild`; and when graph construction happens, the rule
was added before it. -/
theorem Run_adds_all_rule (env : RunEnv) (args : List Str) (flags : Flags) :
    (∀ r, RunEv.addRule r ∈ (Run env args flags).events →
      r = ⟨[cs ":all"], (Run env args flags).reqTargets, [],
        { virtual := true, noMeta := true, rebuild := true }⟩) ∧
    (RunEv.buildGraph ∈ (Run env args flags).events →
      Precedes
        (RunEv.addRule ⟨[cs ":all"], (Run env args flags).reqTargets, [],
          { virtual := true, noMeta := true, rebuild := true }⟩)
        RunEv.buildGraph (Run env args flags).events) := by
  simp only [Run]
  repeat' split
  all_goals
    first
    | exact ⟨fun r hmem => absurd hmem addRule_not_chdir,
        fun hbg => absurd hbg buildGraph_not_chdir⟩
    | exact ⟨fun r hmem => absurd hmem addRule_not_evVars,
        fun hbg => absurd hbg buildGraph_not_evVars⟩
    | exact ⟨fun r hmem => absurd hmem addRule_not_evEval,
        fun hbg => absurd hbg buildGraph_not_evEval⟩
    | (refine ⟨fun r hmem => evGraph_addRule_eq hmem, fun hbg => ?_⟩
       unfold evGraph
       exact Precedes_pair _ _ _)
    | exact ⟨(runPostGraph_c3 env args flags _ _ _ _).1,
        fun hbg => (runPostGraph_c3 env args flags _ _ _ _).2⟩

/-- Witness for `Run_adds_all_rule`: on the demonstration environment
the synthetic rule precedes graph construction. -/
theorem Run_adds_all_rule_witness :
    RunEv.buildGraph ∈ (Run demoEnv [] demoFlags).events ∧
    Precedes
      (RunEv.addRule ⟨[cs ":all"], (Run demoEnv [] demoFlags).reqTargets, [],
        { virtual := true, noMeta := true, rebuild := true }⟩)
      RunEv.buildGraph (Run demoEnv [] demoFlags).events := by
  have h := Run_adds_all_rule demoEnv [] demoFlags
  exact ⟨by decide, h.2 (by decide)⟩

set_option maxHeartbeats 3200000 in
/-- C9: a constructed graph containing only the synthetic `:all` node
(size 1) is rejected with a target-not-found error naming the requested
targets, before recipe expansion, before the executor starts and
without touching the database; a graph-construction error likewise
stops the invocation before expansion and execution. -/
theorem Run_target_not_found (env : RunEnv) (args : List Str) (flags : Flags) :
    ((Run env args flags).graphSize = some 1 →
      (Run env args flags).result =
        some (RunErr.targetNotFound (Run env args flags).reqTargets) ∧
      RunEv.expandRecipes ∉ (Run env args flags).events ∧
      RunEv.exec ∉ (Run env args flags).events ∧
      RunEv.saveDb ∉ (Run env args flags).events ∧
      (∀ loc, RunEv.openDatabase loc ∉ (Run env args flags).events)) ∧
    (∀ e, (Run env args flags).result = some (RunErr.graphErr e) →
      RunEv.expandRecipes ∉ (Run env args flags).events ∧
      RunEv.exec ∉ (Run env args flags).events ∧
      (∀ loc, RunEv.openDatabase loc ∉ (Run env args flags).events)) := by
  simp only [Run]
  repeat' split
  all_goals
    first
    | exact ⟨fun h => Option.noConfusion h,
        fun e h => ⟨postEv_not_chdirEvents rfl, postEv_not_chdirEvents rfl,
          fun loc => postEv_not_chdirEvents rfl⟩⟩
    | exact ⟨fun h => Option.noConfusion h,
        fun e h => ⟨postEv_not_evVars rfl, postEv_not_evVars rfl,
          fun loc => postEv_not_evVars rfl⟩⟩
    | exact ⟨fun h => Option.noConfusion h,
        fun e h => ⟨postEv_not_evEval rfl, postEv_not_evEval rfl,
          fun loc => postEv_not_evEval rfl⟩⟩
    | exact ⟨fun h => Option.noConfusion h,
        fun e h => ⟨postEv_not_evGraph rfl, postEv_not_evGraph rfl,
          fun loc => postEv_not_evGraph rfl⟩⟩
    | exact ⟨fun h => ⟨rfl, postEv_not_evGraph rfl, postEv_not_evGraph rfl,
          postEv_not_evGraph rfl, fun loc => postEv_not_evGraph rfl⟩,
        fun e h => ⟨postEv_not_evGraph rfl, postEv_not_evGraph rfl,
          fun loc => postEv_not_evGraph rfl⟩⟩
    | (refine ⟨fun h => ?_, fun e h => ?_⟩
       · rw [(runPostGraph_fields env flags _ _ _ _ _).2.2.2.1] at h
         injection h with h2
         simp_all
       · exact absurd h ((runPostGraph_fields env flags _ _ _ _ _).2.2.2.2.1 e))

/-- Environment whose graph contains only the synthetic node. -/
def demoEnvSize1 : RunEnv := { demoEnv with graphRes := fun _ _ _ => .ok 1 }

/-- Witness for `Run_target_not_found` on a size-one graph. -/
theorem Run_target_not_found_witness :
    (Run demoEnvSize1 [] demoFlags).result =
      some (RunErr.targetNotFound (Run demoEnvSize1 [] demoFlags).reqTargets) ∧
    RunEv.exec ∉ (Run demoEnvSize1 [] demoFlags).events := by
  have h := (Run_target_not_found demoEnvSize1 [] demoFlags).1 rfl
  exact ⟨h.1, h.2.2.1⟩

theorem chooseKnitfile_title (env : RunEnv) (flags : Flags)
    (h : env.fileExists (title flags.knitfile) = true) :
    chooseKnitfile env flags = title flags.knitfile := by
  cases hd : env.defaultBuildFile <;> simp [chooseKnitfile, h, hd]

theorem chooseKnitfile_default (env : RunEnv) (flags : Flags)
    (h1 : env.fileExists (title flags.knitfile) = false)
    (h2 : env.fileExists flags.knitfile = false) (d : Str)
    (hd : env.defaultBuildFile = some d) : chooseKnitfile env flags = d := by
  simp [chooseKnitfile, h1, h2, hd]

/-- The rule file `Run` opens is always the one `chooseKnitfile`
selects. -/
theorem Run_chosenFile (env : RunEnv) (args : List Str) (flags : Flags)
    (hn : 0 < flags.ncpu) :
    (Run env args flags).chosenFile = some (chooseKnitfile env flags) := by
  simp only [Run]
  rw [if_neg (by omega : ¬flags.ncpu ≤ 0)]
  repeat' split
  all_goals
    first
    | rfl
    | exact (runPostGraph_fields env flags _ _ _ _ _).2.1

/-- When the selected rule file fails to open, `Run` returns the open
error with only the chdir event recorded and the disk untouched. -/
theorem Run_openErr (env : RunEnv) (args : List Str) (flags : Flags)
    (hn : 0 < flags.ncpu) (e : Str)
    (hopen : env.openRes (chooseKnitfile env flags) = some e) :
    (Run env args flags).result = some (RunErr.openErr e) ∧
    (Run env args flags).events = chdirEvents flags ∧
    (Run env args flags).disk = env.disk := by
  simp only [Run]
  rw [if_neg (by omega : ¬flags.ncpu ≤ 0), hopen]
  exact ⟨rfl, rfl, rfl⟩

/-- C7: rule-file selection — when the title-cased knitfile name exists
it is the file opened; when neither it nor the configured name exists
and a default build file was found up the hierarchy, that file is
opened; and when the selected file cannot be opened, `Run` returns the
open error without creating or writing any database. -/
theorem Run_knitfile_selection (env : RunEnv) (args : List Str) (flags : Flags)
    (hn : 0 < flags.ncpu) :
    (env.fileExists (title flags.knitfile) = true →
      (Run env args flags).chosenFile = some (title flags.knitfile)) ∧
    (env.fileExists (title flags.knitfile) = false →
      env.fileExists flags.knitfile = false →
      ∀ d, env.defaultBuildFile = some d →
      (Run env args flags).chosenFile = some d) ∧
    (∀ e, env.openRes (chooseKnitfile env flags) = some e →
      (Run env args flags).result = some (RunErr.openErr e) ∧
      (∀ loc, RunEv.openDatabase loc ∉ (Run env args flags).events) ∧
      RunEv.saveDb ∉ (Run env args flags).events ∧
      (∀ l, (Run env args flags).disk l = env.disk l)) := by
  refine ⟨fun h => ?_, fun h1 h2 d hd => ?_, fun e he => ?_⟩
  · rw [Run_chosenFile env args flags hn, chooseKnitfile_title env flags h]
  · rw [Run_chosenFile env args flags hn,
      chooseKnitfile_default env flags h1 h2 d hd]
  · obtain ⟨hres, hev, hdisk⟩ := Run_openErr env args flags hn e he
    refine ⟨hres, fun loc => ?_, ?_, fun l => by rw [hdisk]⟩
    · rw [hev]
      exact postEv_not_chdirEvents rfl
    · rw [hev]
      exact postEv_not_chdirEvents rfl

/-- Environment in which opening the rule file fails. -/
def demoEnvOpenFail : RunEnv :=
  { demoEnv with openRes := fun _ => some (cs "permission denied") }

/-- Witness for `Run_knitfile_selection`: the title-cased file is
selected, and an open failure surfaces without any database event. -/
theorem Run_knitfile_selection_witness :
    (Run demoEnvOpenFail [] demoFlags).chosenFile =
      some (title demoFlags.knitfile) ∧
    (Run demoEnvOpenFail [] demoFlags).result =
      some (RunErr.openErr (cs "permission denied")) ∧
    RunEv.saveDb ∉ (Run demoEnvOpenFail [] demoFlags).events := by
  have h := Run_knitfile_selection demoEnvOpenFail [] demoFlags (by decide)
  exact ⟨h.1 rfl, (h.2.2 (cs "permission denied") rfl).1,
    (h.2.2 (cs "permission denied") rfl).2.2.1⟩

/-- The C8 shape of the post-graph stage: when the requested target
list is the singleton main target of the root rule set, the run output
reports exactly the main target of its own root rule set. -/
theorem runPostGraph_c8 (env : RunEnv) (flags : Flags) (ev : List RunEv)
    (kf : Str) (rs : RS) (size : Nat) :
    (runPostGraph env flags ev kf [env.mainTarget rs] rs size).reqTargets =
      [env.mainTarget
        (runPostGraph env flags ev kf [env.mainTarget rs] rs size).rootRS] := by
  rw [(runPostGraph_fields env flags ev kf _ rs size).1,
    (runPostGraph_fields env flags ev kf _ rs size).2.2.1]

set_option maxHeartbeats 3200000 in
/-- C8 (amended): with no command-line targets, `Run` requests exactly
the root rule set's main target; and the `no targets` check of the
source is unreachable — `Run` never returns that error, because the
target list at that point is always a one-element list (possibly
containing the empty main-target string). -/
theorem Run_main_target_default (env : RunEnv) (args : List Str)
    (flags : Flags) :
    (RunEv.buildGraph ∈ (Run env args flags).events →
      (makeAssigns args).2 = [] →
      (Run env args flags).reqTargets =
        [env.mainTarget (Run env args flags).rootRS]) ∧
    ((Run env args flags).result ≠ some RunErr.noTargets) := by
  simp only [Run]
  repeat' split
  all_goals
    first
    | exact ⟨fun hbg _ => absurd hbg buildGraph_not_chdir, by simp⟩
    | exact ⟨fun hbg _ => absurd hbg buildGraph_not_evVars, by simp⟩
    | exact ⟨fun hbg _ => absurd hbg buildGraph_not_evEval, by simp_all⟩
    | exact ⟨fun hbg hargs => runPostGraph_c8 env flags _ _ _ _,
        (runPostGraph_fields env flags _ _ _ _ _).2.2.2.2.2.1⟩
    | (simp_all <;>
       exact (runPostGraph_fields env flags _ _ _ _ _).2.2.2.2.2.1)

/-- Environment whose root rule set has no main target (the main target
is the empty string) and whose graph construction fails. -/
def demoEnvNoMain : RunEnv :=
  { demoEnv with
      mainTarget := fun _ => [],
      graphRes := fun _ _ _ => .error (cs "boom") }

/-- C8, counterexample to the claim as stated: with no command-line
targets and a rule set yielding no main target, `Run` does not fail
with a "no targets" error — it proceeds to graph construction with the
empty-string target (here surfacing the graph builder's error
instead). -/
theorem Run_noTargets_dead_counterexample :
    demoEnvNoMain.mainTarget [] = [] ∧
    (Run demoEnvNoMain [] demoFlags).result =
      some (RunErr.graphErr (cs "boom")) ∧
    (Run demoEnvNoMain [] demoFlags).result ≠ some RunErr.noTargets ∧
    RunEv.buildGraph ∈ (Run demoEnvNoMain [] demoFlags).events := by
  exact ⟨rfl, rfl, by decide, by decide⟩

/-- Witness for `Run_main_target_default`: with no command-line targets
the demonstration run requests exactly the main target. -/
theorem Run_main_target_default_witness :
    (Run demoEnv [] demoFlags).reqTargets =
      [demoEnv.mainTarget (Run demoEnv [] demoFlags).rootRS] ∧
    (Run demoEnv [] demoFlags).result ≠ some RunErr.noTargets := by
  have h := Run_main_target_default demoEnv [] demoFlags
  exact ⟨h.1 (by decide) rfl, h.2⟩

end Knit
